import Mathlib

/-!
Verification of the `ga_shift` rest-day scheduling core.

A schedule is an employees × days matrix of small integer codes
(0 = work, 1 = GA-assigned rest, 2 = requested fixed day off, 3 = fixed
unavailable day).  The genetic operators from `ga_shift/ga/operators.py`,
`ga_shift/ga/population.py`, the evaluation from `ga_shift/ga/evaluation.py`,
the constraint compilation from `ga_shift/constraints/`, and the GA loop from
`ga_shift/ga/engine.py` are embedded shallowly: numpy matrices become
`List (List ℕ)`, floats become `ℚ`, and every draw from the global random
source becomes an explicit oracle argument (a coin function `ℕ → ℚ`, or a
choice function standing for `np.random.choice(pool, size=k, replace=False)`
constrained by `ValidChoice`).
-/

namespace GAShift

/-- Schedule matrices: a list of employee rows, each a list of day codes. -/
abbrev Mat := List (List ℕ)

/-- Cell access `m[e][d]` with numpy-style row/column indices (0 outside). -/
def cell (m : Mat) (e d : ℕ) : ℕ := (m.getD e []).getD d 0

/-- `np.count_nonzero` on one row. -/
def count_nonzero : List ℕ → ℕ
  | [] => 0
  | v :: rest => (if v ≠ 0 then 1 else 0) + count_nonzero rest

/-- `np.where(p(row))[0]`: the ascending list of indices whose value satisfies `p`. -/
def whereIdx (p : ℕ → Bool) (l : List ℕ) : List ℕ :=
  (List.range l.length).filter (fun i => p (l.getD i 0))

/-- Fancy-indexed assignment `row[idxs] = v`. -/
def setAll (idxs : List ℕ) (v : ℕ) (l : List ℕ) : List ℕ :=
  idxs.foldl (fun r i => r.set i v) l

/-- One mutation write: `if flat[idx] == 0: flat[idx] = 1 elif flat[idx] == 1: flat[idx] = 0`. -/
def flipAt (l : List ℕ) (idx : ℕ) : List ℕ :=
  if l.getD idx 0 = 0 then l.set idx 1
  else if l.getD idx 0 = 1 then l.set idx 0
  else l

/-- The value `flipAt` leaves at the written position. -/
def flipVal (v : ℕ) : ℕ := if v = 0 then 1 else if v = 1 then 0 else v

/-- `reshape(rows, cols)` of a flat buffer into a matrix. -/
def reshapeRows : ℕ → ℕ → List ℕ → Mat
  | 0, _, _ => []
  | r + 1, n, l => l.take n :: reshapeRows r n (l.drop n)

/-- Python `int()` on a rational: truncation toward zero. -/
def pyInt (q : ℚ) : ℤ := if 0 ≤ q then ⌊q⌋ else ⌈q⌉

/-- What `np.random.choice(pool, size=k, replace=False)` guarantees about its
result when `pool` has no duplicates: `k` distinct elements drawn from `pool`. -/
def ValidChoice (pool : List ℕ) (k : ℕ) (chosen : List ℕ) : Prop :=
  chosen.Nodup ∧ chosen.length = k ∧ ∀ i ∈ chosen, i ∈ pool

/-- A deterministic oracle standing for one call site of `np.random.choice`. -/
abbrev ChooseFn := List ℕ → ℕ → List ℕ

/-- The oracle behaves like `np.random.choice(·, ·, replace=False)` on
duplicate-free pools. -/
def ChooseOK (f : ChooseFn) : Prop :=
  ∀ pool k, pool.Nodup → k ≤ pool.length → ValidChoice pool k (f pool k)

/-- Per-employee record; only the fields the GA core reads. -/
structure EmployeeInfo where
  index : ℕ
  name : String
  required_holidays : ℕ
deriving Repr, DecidableEq

/-- The per-run planning input (`ga_shift/models/schedule.py:ShiftInput`),
restricted to the fields the optimization core reads. -/
structure ShiftInput where
  num_employees : ℕ
  num_days : ℕ
  employees : List EmployeeInfo
  required_workers : List ℤ
  base_schedule : Mat
deriving Repr, DecidableEq

/-! ## Genetic operators (`ga_shift/ga/operators.py`, `population.py`)

`crossover_uniform` draws one uniform float per flattened cell and swaps the
cell between the children when the parents differ there and the draw is
`>= rate`; the draws are the oracle `rnd : ℕ → ℚ`.  `mutation` first draws one
float `r`; `r >= mutation_rate` returns the child unchanged.  -/

/-- The flattened crossover loop: position `i` swaps when the parents differ
and `rnd i >= rate` (the vectorized `diff_mask & (np.random.random(len) >= rate)`). -/
def crossFlat (rate : ℚ) (rnd : ℕ → ℚ) : ℕ → List ℕ → List ℕ → List ℕ × List ℕ
  | _, [], _ => ([], [])
  | _, _ :: _, [] => ([], [])
  | i, a :: as, b :: bs =>
    let rest := crossFlat rate rnd (i + 1) as bs
    if a ≠ b ∧ rate ≤ rnd i then (b :: rest.1, a :: rest.2)
    else (a :: rest.1, b :: rest.2)

/-- `crossover_uniform(parent1, parent2, rate)`. -/
def crossover_uniform (parent1 parent2 : Mat) (rate : ℚ) (rnd : ℕ → ℚ) : Mat × Mat :=
  let p1 := parent1.flatten
  let p2 := parent2.flatten
  let ch := crossFlat rate rnd 0 p1 p2
  let rows := parent1.length
  let cols := (parent1.headD []).length
  (reshapeRows rows cols ch.1, reshapeRows rows cols ch.2)

/-- `mutation(child, mutation_rate, gene_ratio)`; `r` is the per-individual
uniform draw and `choose` the `np.random.choice` oracle. -/
def mutation (child : Mat) (mutation_rate gene_ratio : ℚ) (r : ℚ) (choose : ChooseFn) : Mat :=
  if mutation_rate ≤ r then child
  else
    let flat := child.flatten
    let mutable_indices := whereIdx (fun v => v == 0 || v == 1) flat
    if mutable_indices.length = 0 then child
    else
      let mutation_count : ℤ := max 1 (pyInt ((mutable_indices.length : ℚ) * gene_ratio))
      let chosen := choose mutable_indices (min mutation_count.toNat mutable_indices.length)
      reshapeRows child.length ((child.headD []).length) (chosen.foldl flipAt flat)

/-- The body of `holiday_fix` for one employee row. -/
def fixRow (ch : ChooseFn) (row : List ℕ) (target : ℕ) : List ℕ :=
  let actual := count_nonzero row
  if actual = target then row
  else if target < actual then
    let diff := actual - target
    let holiday_indices := whereIdx (fun v => v == 1) row
    if diff ≤ holiday_indices.length then setAll (ch holiday_indices diff) 0 row
    else setAll holiday_indices 0 row
  else
    let need := target - actual
    let work_indices := whereIdx (fun v => v == 0) row
    if need ≤ work_indices.length then setAll (ch work_indices need) 1 row
    else setAll work_indices 1 row

/-- The employee loop of `holiday_fix`; `choose k` is the oracle for the
`k`-th employee processed. -/
def holidayFixGo (choose : ℕ → ChooseFn) : ℕ → List EmployeeInfo → Mat → Mat
  | _, [], m => m
  | k, emp :: rest, m =>
    holidayFixGo choose (k + 1) rest
      (m.set emp.index (fixRow (choose k) (m.getD emp.index []) emp.required_holidays))

/-- `holiday_fix(schedule, shift_input)`: repair every employee's rest-day
count toward the contract quota, touching only codes 0 and 1. -/
def holiday_fix (schedule : Mat) (si : ShiftInput) (choose : ℕ → ChooseFn) : Mat :=
  holidayFixGo choose 0 si.employees schedule

/-- The employee loop of `create_individual`. -/
def createGo (choose : ℕ → ChooseFn) : ℕ → List EmployeeInfo → Mat → Mat
  | _, [], m => m
  | k, emp :: rest, m =>
    let row := m.getD emp.index []
    let target := emp.required_holidays
    let existing := count_nonzero row
    let work_indices := whereIdx (fun v => v == 0) row
    let m' :=
      if existing < target ∧ target - existing ≤ work_indices.length then
        m.set emp.index (setAll (choose k work_indices (target - existing)) 1 row)
      else m
    createGo choose (k + 1) rest m'

/-- `create_individual(shift_input)`: copy the base schedule and randomly top
each employee's row up to the quota on code-0 cells. -/
def create_individual (si : ShiftInput) (choose : ℕ → ChooseFn) : Mat :=
  createGo choose 0 si.employees si.base_schedule

/-! ## List infrastructure lemmas -/

theorem getD_set_ne' {α : Type} (l : List α) (i j : ℕ) (v dflt : α) (h : i ≠ j) :
    (l.set i v).getD j dflt = l.getD j dflt := by
  simp [List.getD_eq_getElem?_getD, List.getElem?_set_ne h]

theorem getD_set_self' {α : Type} (l : List α) (i : ℕ) (v dflt : α) (h : i < l.length) :
    (l.set i v).getD i dflt = v := by
  simp [List.getD_eq_getElem?_getD, List.getElem?_set_self, h]

theorem getD_set_ne (l : List ℕ) (i j v : ℕ) (h : i ≠ j) :
    (l.set i v).getD j 0 = l.getD j 0 := getD_set_ne' l i j v 0 h

theorem getD_set_self (l : List ℕ) (i v : ℕ) (h : i < l.length) :
    (l.set i v).getD i 0 = v := getD_set_self' l i v 0 h

theorem mem_whereIdx {p : ℕ → Bool} {l : List ℕ} {i : ℕ} :
    i ∈ whereIdx p l ↔ i < l.length ∧ p (l.getD i 0) := by
  simp [whereIdx, List.mem_filter, List.mem_range]

theorem nodup_whereIdx (p : ℕ → Bool) (l : List ℕ) : (whereIdx p l).Nodup :=
  (List.nodup_range _).filter _

theorem length_setAll (idxs : List ℕ) (v : ℕ) (l : List ℕ) :
    (setAll idxs v l).length = l.length := by
  induction idxs generalizing l with
  | nil => rfl
  | cons i rest ih => simp [setAll, List.foldl_cons] at ih ⊢; rw [ih, List.length_set]

theorem setAll_cons (i : ℕ) (rest : List ℕ) (v : ℕ) (l : List ℕ) :
    setAll (i :: rest) v l = setAll rest v (l.set i v) := rfl

theorem getD_setAll_not_mem {idxs : List ℕ} {d : ℕ} (h : d ∉ idxs) (v : ℕ) (l : List ℕ) :
    (setAll idxs v l).getD d 0 = l.getD d 0 := by
  induction idxs generalizing l with
  | nil => rfl
  | cons i rest ih =>
    have hne : i ≠ d := fun hi => h (by rw [← hi]; exact List.mem_cons_self i rest)
    rw [setAll_cons, ih (fun hm => h (List.mem_cons_of_mem _ hm)), getD_set_ne _ _ _ _ hne]

theorem getD_setAll_mem {idxs : List ℕ} {d : ℕ} (hm : d ∈ idxs) (v : ℕ) (l : List ℕ)
    (hd : d < l.length) : (setAll idxs v l).getD d 0 = v := by
  induction idxs generalizing l with
  | nil => cases hm
  | cons i rest ih =>
    rw [setAll_cons]
    rcases List.mem_cons.1 hm with h | h
    · by_cases hr : d ∈ rest
      · exact ih hr _ (by rw [List.length_set]; exact hd)
      · subst h
        rw [getD_setAll_not_mem hr, getD_set_self _ _ _ hd]
    · exact ih h _ (by rw [List.length_set]; exact hd)

theorem mem_setAll {x : ℕ} {idxs : List ℕ} {v : ℕ} {l : List ℕ}
    (h : x ∈ setAll idxs v l) : x ∈ l ∨ x = v := by
  induction idxs generalizing l with
  | nil => exact Or.inl h
  | cons i rest ih =>
    rw [setAll_cons] at h
    rcases ih h with h' | h'
    · rcases List.mem_or_eq_of_mem_set h' with h'' | h''
      · exact Or.inl h''
      · exact Or.inr h''
    · exact Or.inr h'

theorem count_nonzero_append (l₁ l₂ : List ℕ) :
    count_nonzero (l₁ ++ l₂) = count_nonzero l₁ + count_nonzero l₂ := by
  induction l₁ with
  | nil => simp [count_nonzero]
  | cons v rest ih => simp [count_nonzero, ih]; omega

theorem count_nonzero_set_zero {l : List ℕ} {i : ℕ} (hi : i < l.length)
    (hv : l.getD i 0 ≠ 0) : count_nonzero (l.set i 0) + 1 = count_nonzero l := by
  induction l generalizing i with
  | nil => cases hi
  | cons v rest ih =>
    cases i with
    | zero =>
      have hv' : v ≠ 0 := by simpa [List.getD] using hv
      simp only [List.set_cons_zero, count_nonzero, if_neg (by simp : ¬(0 : ℕ) ≠ 0),
        if_pos hv']
      omega
    | succ n =>
      simp only [List.set_cons_succ, count_nonzero]
      have := ih (by simpa using hi) (by simpa [List.getD] using hv)
      omega

theorem count_nonzero_set_one {l : List ℕ} {i : ℕ} (hi : i < l.length)
    (hv : l.getD i 0 = 0) : count_nonzero (l.set i 1) = count_nonzero l + 1 := by
  induction l generalizing i with
  | nil => cases hi
  | cons v rest ih =>
    cases i with
    | zero =>
      have hv' : v = 0 := by simpa [List.getD] using hv
      subst hv'
      simp only [List.set_cons_zero, count_nonzero, if_neg (by simp : ¬(0 : ℕ) ≠ 0),
        if_pos (by simp : (1 : ℕ) ≠ 0)]
      omega
    | succ n =>
      simp only [List.set_cons_succ, count_nonzero]
      have := ih (by simpa using hi) (by simpa [List.getD] using hv)
      omega

theorem count_nonzero_setAll_zero {idxs : List ℕ} {l : List ℕ} (hnd : idxs.Nodup)
    (hin : ∀ i ∈ idxs, i < l.length ∧ l.getD i 0 = 1) :
    count_nonzero (setAll idxs 0 l) + idxs.length = count_nonzero l := by
  induction idxs generalizing l with
  | nil => simp [setAll]
  | cons i rest ih =>
    rw [setAll_cons]
    have hi := hin i (List.mem_cons_self i rest)
    have hrest : ∀ j ∈ rest, j < (l.set i 0).length ∧ (l.set i 0).getD j 0 = 1 := by
      intro j hj
      have hne : i ≠ j := fun he => (List.nodup_cons.1 hnd).1 (he ▸ hj)
      have := hin j (List.mem_cons_of_mem _ hj)
      exact ⟨by rw [List.length_set]; exact this.1, by rw [getD_set_ne _ _ _ _ hne]; exact this.2⟩
    have h1 := ih (List.nodup_cons.1 hnd).2 hrest
    have h2 := count_nonzero_set_zero hi.1 (by rw [hi.2]; exact one_ne_zero)
    simp only [List.length_cons]
    omega

theorem count_nonzero_setAll_one {idxs : List ℕ} {l : List ℕ} (hnd : idxs.Nodup)
    (hin : ∀ i ∈ idxs, i < l.length ∧ l.getD i 0 = 0) :
    count_nonzero (setAll idxs 1 l) = count_nonzero l + idxs.length := by
  induction idxs generalizing l with
  | nil => simp [setAll]
  | cons i rest ih =>
    rw [setAll_cons]
    have hi := hin i (List.mem_cons_self i rest)
    have hrest : ∀ j ∈ rest, j < (l.set i 1).length ∧ (l.set i 1).getD j 0 = 0 := by
      intro j hj
      have hne : i ≠ j := fun he => (List.nodup_cons.1 hnd).1 (he ▸ hj)
      have := hin j (List.mem_cons_of_mem _ hj)
      exact ⟨by rw [List.length_set]; exact this.1, by rw [getD_set_ne _ _ _ _ hne]; exact this.2⟩
    have h1 := ih (List.nodup_cons.1 hnd).2 hrest
    have h2 := count_nonzero_set_one hi.1 hi.2
    simp only [List.length_cons]
    omega

/-! ### Flatten / reshape index bridge -/

theorem getD_append_left {l₁ : List ℕ} (l₂ : List ℕ) {d : ℕ} (hd : d < l₁.length) :
    (l₁ ++ l₂).getD d 0 = l₁.getD d 0 := by
  induction l₁ generalizing d with
  | nil => cases hd
  | cons v rest ih =>
    cases d with
    | zero => rfl
    | succ n => exact ih (by simpa using hd)

theorem getD_append_right (l₁ l₂ : List ℕ) (d : ℕ) :
    (l₁ ++ l₂).getD (l₁.length + d) 0 = l₂.getD d 0 := by
  induction l₁ with
  | nil => simp
  | cons v rest ih => simpa [Nat.succ_add] using ih

theorem getD_take {l : List ℕ} {n d : ℕ} (hd : d < n) :
    (l.take n).getD d 0 = l.getD d 0 := by
  induction l generalizing n d with
  | nil => simp
  | cons v rest ih =>
    cases n with
    | zero => cases hd
    | succ m =>
      cases d with
      | zero => rfl
      | succ k => exact ih (by omega)

theorem getD_drop (l : List ℕ) (n d : ℕ) :
    (l.drop n).getD d 0 = l.getD (n + d) 0 := by
  induction l generalizing n with
  | nil => simp
  | cons v rest ih =>
    cases n with
    | zero => simp
    | succ m => simpa [Nat.succ_add] using ih m

/-- A matrix all of whose rows have length `cols` (the numpy shape contract). -/
abbrev UniformRows (m : Mat) (cols : ℕ) : Prop := ∀ row ∈ m, row.length = cols

theorem flatten_getD {m : Mat} {cols : ℕ} (hu : UniformRows m cols)
    {e d : ℕ} (he : e < m.length) (hd : d < cols) :
    m.flatten.getD (e * cols + d) 0 = cell m e d := by
  induction m generalizing e with
  | nil => cases he
  | cons row rest ih =>
    have hrow : row.length = cols := hu row (List.mem_cons_self _ _)
    cases e with
    | zero =>
      rw [List.flatten_cons, Nat.zero_mul, Nat.zero_add, getD_append_left _ (by omega)]
      rfl
    | succ n =>
      have hn : n < rest.length := by simpa using he
      have ihr := ih (fun r hr => hu r (List.mem_cons_of_mem _ hr)) hn
      rw [List.flatten_cons, show (n + 1) * cols + d = row.length + (n * cols + d) by
        rw [hrow]; ring, getD_append_right, ihr]
      rfl

theorem cell_reshapeRows {rows cols : ℕ} {l : List ℕ} {e d : ℕ}
    (he : e < rows) (hd : d < cols) :
    cell (reshapeRows rows cols l) e d = l.getD (e * cols + d) 0 := by
  induction rows generalizing e l with
  | zero => cases he
  | succ n ih =>
    cases e with
    | zero =>
      show (l.take cols).getD d 0 = l.getD (0 * cols + d) 0
      rw [getD_take hd, Nat.zero_mul, Nat.zero_add]
    | succ k =>
      have hk : k < n := by omega
      show cell (reshapeRows n cols (l.drop cols)) k d = l.getD ((k + 1) * cols + d) 0
      rw [ih hk, getD_drop, show cols + (k * cols + d) = (k + 1) * cols + d by ring]

theorem reshapeRows_flatten {m : Mat} {cols : ℕ} (hu : UniformRows m cols) :
    reshapeRows m.length cols m.flatten = m := by
  induction m with
  | nil => rfl
  | cons row rest ih =>
    have hrow : row.length = cols := hu row (List.mem_cons_self _ _)
    simp only [List.length_cons, List.flatten_cons, reshapeRows]
    rw [List.take_left' hrow, List.drop_left' hrow,
      ih (fun r hr => hu r (List.mem_cons_of_mem _ hr))]

/-! ### The mutation write loop -/

theorem length_flipAt (l : List ℕ) (i : ℕ) : (flipAt l i).length = l.length := by
  unfold flipAt
  split
  · exact List.length_set l i 1
  · split
    · exact List.length_set l i 0
    · rfl

theorem getD_flipAt_ne (l : List ℕ) {i j : ℕ} (hne : i ≠ j) :
    (flipAt l i).getD j 0 = l.getD j 0 := by
  unfold flipAt
  split
  · exact getD_set_ne _ _ _ _ hne
  · split
    · exact getD_set_ne _ _ _ _ hne
    · rfl

theorem getD_flipAt_self (l : List ℕ) {i : ℕ} (hi : i < l.length) :
    (flipAt l i).getD i 0 = flipVal (l.getD i 0) := by
  unfold flipAt flipVal
  split
  · rw [getD_set_self _ _ _ hi]
  · split
    · rw [getD_set_self _ _ _ hi]
    · simp_all

theorem length_foldl_flipAt (idxs : List ℕ) (l : List ℕ) :
    (idxs.foldl flipAt l).length = l.length := by
  induction idxs generalizing l with
  | nil => rfl
  | cons i rest ih => rw [List.foldl_cons, ih, length_flipAt]

theorem getD_foldl_flipAt_not_mem {idxs : List ℕ} {j : ℕ} (h : j ∉ idxs) (l : List ℕ) :
    (idxs.foldl flipAt l).getD j 0 = l.getD j 0 := by
  induction idxs generalizing l with
  | nil => rfl
  | cons i rest ih =>
    have hne : i ≠ j := fun he => h (by rw [← he]; exact List.mem_cons_self i rest)
    rw [List.foldl_cons, ih (fun hm => h (List.mem_cons_of_mem _ hm)), getD_flipAt_ne _ hne]

theorem getD_foldl_flipAt_mem {idxs : List ℕ} {j : ℕ} (hnd : idxs.Nodup) (hm : j ∈ idxs)
    (l : List ℕ) (hj : j < l.length) :
    (idxs.foldl flipAt l).getD j 0 = flipVal (l.getD j 0) := by
  induction idxs generalizing l with
  | nil => cases hm
  | cons i rest ih =>
    rw [List.foldl_cons]
    rcases List.mem_cons.1 hm with h | h
    · subst h
      rw [getD_foldl_flipAt_not_mem (List.nodup_cons.1 hnd).1, getD_flipAt_self _ hj]
    · have hne : i ≠ j := fun he => (List.nodup_cons.1 hnd).1 (he ▸ h)
      rw [ih (List.nodup_cons.1 hnd).2 h _ (by rw [length_flipAt]; exact hj),
        getD_flipAt_ne _ hne]

theorem flatten_length_uniform {m : Mat} {cols : ℕ} (hu : UniformRows m cols) :
    m.flatten.length = m.length * cols := by
  induction m with
  | nil => simp
  | cons row rest ih =>
    have hrow : row.length = cols := hu row (List.mem_cons_self _ _)
    simp only [List.flatten_cons, List.length_append, List.length_cons,
      ih (fun r hr => hu r (List.mem_cons_of_mem _ hr)), hrow]
    ring

theorem flat_index_lt {e d rows cols : ℕ} (he : e < rows) (hd : d < cols) :
    e * cols + d < rows * cols :=
  calc e * cols + d < e * cols + cols := by omega
  _ = (e + 1) * cols := by ring
  _ ≤ rows * cols := Nat.mul_le_mul_right cols he

/-! ### The crossover loop -/

theorem crossFlat_self (rate : ℚ) (rnd : ℕ → ℚ) (i : ℕ) (l : List ℕ) :
    crossFlat rate rnd i l l = (l, l) := by
  induction l generalizing i with
  | nil => rfl
  | cons a as ih => simp [crossFlat, ih]

theorem crossFlat_getD (rate : ℚ) (rnd : ℕ → ℚ) {l1 l2 : List ℕ}
    (hlen : l1.length = l2.length) (i j : ℕ) (hj : j < l1.length) :
    (crossFlat rate rnd i l1 l2).1.getD j 0 =
      (if l1.getD j 0 ≠ l2.getD j 0 ∧ rate ≤ rnd (i + j) then l2.getD j 0 else l1.getD j 0) ∧
    (crossFlat rate rnd i l1 l2).2.getD j 0 =
      (if l1.getD j 0 ≠ l2.getD j 0 ∧ rate ≤ rnd (i + j) then l1.getD j 0 else l2.getD j 0) := by
  induction l1 generalizing l2 i j with
  | nil => cases hj
  | cons a as ih =>
    cases l2 with
    | nil => simp at hlen
    | cons b bs =>
      have hlen' : as.length = bs.length := by simpa using hlen
      cases j with
      | zero =>
        by_cases hc : a ≠ b ∧ rate ≤ rnd i
        · simp [crossFlat, hc]
        · simp only [crossFlat, if_neg hc]
          simp only [List.getD_cons_zero, Nat.add_zero]
          rw [if_neg hc, if_neg hc]
          exact ⟨rfl, rfl⟩
      | succ k =>
        have hk : k < as.length := by simpa using hj
        have ihr := ih hlen' (i + 1) k hk
        have harith : i + 1 + k = i + (k + 1) := by omega
        rw [harith] at ihr
        by_cases hc : a ≠ b ∧ rate ≤ rnd i
        · simpa [crossFlat, hc, List.getD_cons_succ] using ihr
        · simpa [crossFlat, hc, List.getD_cons_succ] using ihr

theorem crossFlat_length (rate : ℚ) (rnd : ℕ → ℚ) (i : ℕ) (l1 l2 : List ℕ) :
    (crossFlat rate rnd i l1 l2).1.length ≤ l1.length ∧
    (crossFlat rate rnd i l1 l2).2.length ≤ l1.length := by
  induction l1 generalizing l2 i with
  | nil => simp [crossFlat]
  | cons a as ih =>
    cases l2 with
    | nil => simp [crossFlat]
    | cons b bs =>
      have := ih (i + 1) bs
      by_cases hc : a ≠ b ∧ rate ≤ rnd i <;>
        simp only [crossFlat, if_pos, if_neg, hc, if_true, if_false, List.length_cons] <;>
        simp_all <;> omega

/-- C8: uniform crossover inherits agreeing cells unconditionally, assigns
differing cells complementarily, and crossing a matrix with itself returns two
children equal to the parent.  Part 1: self-crossover identity; part 2: at an
agreeing cell both children carry the shared value; at a differing cell one
child carries parent 1's value exactly when the other carries parent 2's. -/
theorem crossover_uniform_agreement (rate : ℚ) (rnd : ℕ → ℚ) :
    (∀ (P : Mat) (cols : ℕ), UniformRows P cols →
      crossover_uniform P P rate rnd = (P, P)) ∧
    (∀ (p1 p2 : Mat) (cols : ℕ), UniformRows p1 cols → UniformRows p2 cols →
      p1.length = p2.length → ∀ e d, e < p1.length → d < cols →
      ((cell p1 e d = cell p2 e d →
        cell (crossover_uniform p1 p2 rate rnd).1 e d = cell p1 e d ∧
        cell (crossover_uniform p1 p2 rate rnd).2 e d = cell p1 e d) ∧
       (cell p1 e d ≠ cell p2 e d →
        (cell (crossover_uniform p1 p2 rate rnd).1 e d = cell p2 e d ∧
         cell (crossover_uniform p1 p2 rate rnd).2 e d = cell p1 e d) ∨
        (cell (crossover_uniform p1 p2 rate rnd).1 e d = cell p1 e d ∧
         cell (crossover_uniform p1 p2 rate rnd).2 e d = cell p2 e d)))) := by
  constructor
  · intro P cols hu
    cases P with
    | nil => rfl
    | cons row rest =>
      have hrow : row.length = cols := hu row (List.mem_cons_self _ _)
      simp only [crossover_uniform, crossFlat_self, List.headD_cons, hrow]
      rw [reshapeRows_flatten hu]
  · intro p1 p2 cols hu1 hu2 hlen e d he hd
    have hcols : (p1.headD []).length = cols := by
      cases p1 with
      | nil => cases he
      | cons row rest => exact hu1 row (List.mem_cons_self _ _)
    have hflen : p1.flatten.length = p2.flatten.length := by
      rw [flatten_length_uniform hu1, flatten_length_uniform hu2, hlen]
    have hj : e * cols + d < p1.flatten.length := by
      rw [flatten_length_uniform hu1]; exact flat_index_lt he hd
    have hget := crossFlat_getD rate rnd hflen 0 (e * cols + d) hj
    have h1 : p1.flatten.getD (e * cols + d) 0 = cell p1 e d := flatten_getD hu1 he hd
    have h2 : p2.flatten.getD (e * cols + d) 0 = cell p2 e d :=
      flatten_getD hu2 (hlen ▸ he) hd
    have hc1 : cell (crossover_uniform p1 p2 rate rnd).1 e d =
        (crossFlat rate rnd 0 p1.flatten p2.flatten).1.getD (e * cols + d) 0 := by
      simp only [crossover_uniform, hcols]
      exact cell_reshapeRows he hd
    have hc2 : cell (crossover_uniform p1 p2 rate rnd).2 e d =
        (crossFlat rate rnd 0 p1.flatten p2.flatten).2.getD (e * cols + d) 0 := by
      simp only [crossover_uniform, hcols]
      exact cell_reshapeRows he hd
    rw [h1, h2] at hget
    constructor
    · intro hagree
      rw [hc1, hc2, hget.1, hget.2, if_neg (by simp [hagree]), if_neg (by simp [hagree])]
      exact ⟨rfl, hagree.symm⟩
    · intro hdiff
      by_cases hr : rate ≤ rnd (0 + (e * cols + d))
      · left
        rw [hc1, hc2, hget.1, hget.2, if_pos ⟨hdiff, hr⟩, if_pos ⟨hdiff, hr⟩]
        exact ⟨rfl, rfl⟩
      · right
        rw [hc1, hc2, hget.1, hget.2, if_neg (by tauto), if_neg (by tauto)]
        exact ⟨rfl, rfl⟩

/-- Witness for C8: crossing a concrete matrix with itself returns it twice. -/
theorem crossover_uniform_agreement_witness :
    crossover_uniform [[0, 1], [1, 0]] [[0, 1], [1, 0]] (1/2) (fun _ => 0) =
      ([[0, 1], [1, 0]], [[0, 1], [1, 0]]) :=
  (crossover_uniform_agreement (1/2) (fun _ => 0)).1 [[0, 1], [1, 0]] 2 (by decide)

/-! ## Fixed-cell preservation (invariant I1) -/

/-- `mutation` never writes a cell currently holding code 2 or 3: the chosen
indices come from `np.where((flat == 0) | (flat == 1))`. -/
theorem mutation_preserves_fixed {child : Mat} {cols : ℕ} (hu : UniformRows child cols)
    (mutation_rate gene_ratio r : ℚ) {choose : ChooseFn} (hok : ChooseOK choose)
    {e d : ℕ} (he : e < child.length) (hd : d < cols)
    (hv : cell child e d = 2 ∨ cell child e d = 3) :
    cell (mutation child mutation_rate gene_ratio r choose) e d = cell child e d := by
  simp only [mutation]
  split
  · rfl
  · split
    · rfl
    · set flat := child.flatten with hflat
      set mi := whereIdx (fun v => v == 0 || v == 1) flat with hmi
      set k := min (max 1 (pyInt ((mi.length : ℚ) * gene_ratio))).toNat mi.length with hk
      have hvc : (choose mi k).Nodup ∧ (choose mi k).length = k ∧
          ∀ i ∈ choose mi k, i ∈ mi :=
        hok mi k (nodup_whereIdx _ _) (min_le_right _ _)
      have hcols : (child.headD []).length = cols := by
        cases child with
        | nil => cases he
        | cons row rest => exact hu row (List.mem_cons_self _ _)
      have hflatcell : flat.getD (e * cols + d) 0 = cell child e d := flatten_getD hu he hd
      have hnotsel : e * cols + d ∉ choose mi k := by
        intro hmem
        have := (mem_whereIdx.1 (hvc.2.2 _ hmem)).2
        rw [hflatcell] at this
        rcases hv with h | h <;> rw [h] at this <;> simp at this
      rw [hcols, cell_reshapeRows he hd, getD_foldl_flipAt_not_mem hnotsel, hflatcell]

/-- `fixRow` never writes a position currently holding code 2 or 3: every
write targets a position whose value is 1 (over quota) or 0 (under quota). -/
theorem fixRow_preserves_fixed {ch : ChooseFn} (hok : ChooseOK ch) (row : List ℕ)
    (target : ℕ) {d : ℕ} (hv : row.getD d 0 = 2 ∨ row.getD d 0 = 3) :
    (fixRow ch row target).getD d 0 = row.getD d 0 := by
  have hval : ∀ (p : ℕ → Bool), p (row.getD d 0) = false → d ∉ whereIdx p row := by
    intro p hp hmem
    rw [(mem_whereIdx.1 hmem).2] at hp
    cases hp
  have h1 : d ∉ whereIdx (fun v => v == 1) row := by
    apply hval
    rcases hv with h | h <;> rw [h] <;> rfl
  have h0 : d ∉ whereIdx (fun v => v == 0) row := by
    apply hval
    rcases hv with h | h <;> rw [h] <;> rfl
  simp only [fixRow]
  split
  · rfl
  · split
    · split
      · apply getD_setAll_not_mem
        intro hmem
        exact h1 ((hok _ _ (nodup_whereIdx _ _) (by assumption)).2.2 _ hmem)
      · exact getD_setAll_not_mem h1 _ _
    · split
      · apply getD_setAll_not_mem
        intro hmem
        exact h0 ((hok _ _ (nodup_whereIdx _ _) (by assumption)).2.2 _ hmem)
      · exact getD_setAll_not_mem h0 _ _

/-- Rows outside the matrix read as the default 0. -/
theorem cell_default_of_ge {m : Mat} {e : ℕ} (h : m.length ≤ e) (d : ℕ) : cell m e d = 0 := by
  have hrow : m.getD e [] = [] := by
    rw [List.getD_eq_getElem?_getD, List.getElem?_eq_none h]
    rfl
  unfold cell
  rw [hrow]
  rfl

/-- The `holiday_fix` employee loop preserves every cell holding 2 or 3. -/
theorem holidayFixGo_preserves_fixed {choose : ℕ → ChooseFn} (hok : ∀ k, ChooseOK (choose k))
    (emps : List EmployeeInfo) (k : ℕ) (m : Mat) {e d : ℕ}
    (hv : cell m e d = 2 ∨ cell m e d = 3) :
    cell (holidayFixGo choose k emps m) e d = cell m e d := by
  induction emps generalizing k m with
  | nil => rfl
  | cons emp rest ih =>
    show cell (holidayFixGo choose (k + 1) rest _) e d = cell m e d
    by_cases hidx : emp.index = e
    · subst hidx
      have he : emp.index < m.length := by
        rcases Nat.lt_or_ge emp.index m.length with hlt | hge
        · exact hlt
        · rcases hv with hF | hF <;> rw [cell_default_of_ge hge] at hF <;> simp at hF
      have hcell : cell (m.set emp.index
          (fixRow (choose k) (m.getD emp.index []) emp.required_holidays)) emp.index d =
          cell m emp.index d := by
        unfold cell
        rw [getD_set_self' _ _ _ _ he, fixRow_preserves_fixed (hok k) _ _ hv]
      rw [ih (k + 1) _ (by rw [hcell]; exact hv), hcell]
    · have hcell : cell (m.set emp.index
          (fixRow (choose k) (m.getD emp.index []) emp.required_holidays)) e d =
          cell m e d := by
        unfold cell
        rw [getD_set_ne' _ _ _ _ _ hidx]
      rw [ih (k + 1) _ (by rw [hcell]; exact hv), hcell]

/-- The `create_individual` employee loop preserves every cell holding 2 or 3. -/
theorem createGo_preserves_fixed {choose : ℕ → ChooseFn} (hok : ∀ k, ChooseOK (choose k))
    (emps : List EmployeeInfo) (k : ℕ) (m : Mat) {e d : ℕ}
    (hv : cell m e d = 2 ∨ cell m e d = 3) :
    cell (createGo choose k emps m) e d = cell m e d := by
  induction emps generalizing k m with
  | nil => rfl
  | cons emp rest ih =>
    simp only [createGo]
    split
    · rename_i hcond
      by_cases hidx : emp.index = e
      · subst hidx
        have he : emp.index < m.length := by
          rcases Nat.lt_or_ge emp.index m.length with hlt | hge
          · exact hlt
          · rcases hv with hF | hF <;> rw [cell_default_of_ge hge] at hF <;> simp at hF
        have hrow := (hok k) (whereIdx (fun v => v == 0) (m.getD emp.index []))
          (emp.required_holidays - count_nonzero (m.getD emp.index []))
          (nodup_whereIdx _ _) hcond.2
        have hnot : d ∉ choose k (whereIdx (fun v => v == 0) (m.getD emp.index []))
            (emp.required_holidays - count_nonzero (m.getD emp.index [])) := by
          intro hmem
          have := (mem_whereIdx.1 (hrow.2.2 _ hmem)).2
          rcases hv with h | h <;>
            rw [show (m.getD emp.index []).getD d 0 = cell m emp.index d from rfl, h] at this <;>
            cases this
        have hcell : cell (m.set emp.index
            (setAll (choose k (whereIdx (fun v => v == 0) (m.getD emp.index []))
              (emp.required_holidays - count_nonzero (m.getD emp.index []))) 1
              (m.getD emp.index []))) emp.index d = cell m emp.index d := by
          unfold cell
          rw [getD_set_self' _ _ _ _ he, getD_setAll_not_mem hnot]
        rw [ih (k + 1) _ (by rw [hcell]; exact hv), hcell]
      · have hcell : cell (m.set emp.index
            (setAll (choose k (whereIdx (fun v => v == 0) (m.getD emp.index []))
              (emp.required_holidays - count_nonzero (m.getD emp.index []))) 1
              (m.getD emp.index []))) e d = cell m e d := by
          unfold cell
          rw [getD_set_ne' _ _ _ _ _ hidx]
        rw [ih (k + 1) _ (by rw [hcell]; exact hv), hcell]
    · exact ih (k + 1) m hv

/-- C1: every cell holding code 2 or 3 in the base schedule keeps exactly that
value through every genetic operator: `create_individual` applied to the base
schedule, `mutation` and `holiday_fix` applied to any schedule that agrees
with the base on the fixed cells, and `crossover_uniform` applied to two
parents that both agree with the base on the fixed cells. -/
theorem operators_preserve_fixed_cells (base : Mat) {e d : ℕ}
    (hfix : cell base e d = 2 ∨ cell base e d = 3) :
    (∀ (si : ShiftInput) (choose : ℕ → ChooseFn), si.base_schedule = base →
      (∀ k, ChooseOK (choose k)) →
      cell (create_individual si choose) e d = cell base e d) ∧
    (∀ (child : Mat) (cols : ℕ) (mutation_rate gene_ratio r : ℚ) (choose : ChooseFn),
      UniformRows child cols → e < child.length → d < cols → ChooseOK choose →
      cell child e d = cell base e d →
      cell (mutation child mutation_rate gene_ratio r choose) e d = cell base e d) ∧
    (∀ (schedule : Mat) (si : ShiftInput) (choose : ℕ → ChooseFn),
      (∀ k, ChooseOK (choose k)) → cell schedule e d = cell base e d →
      cell (holiday_fix schedule si choose) e d = cell base e d) ∧
    (∀ (p1 p2 : Mat) (cols : ℕ) (rate : ℚ) (rnd : ℕ → ℚ),
      UniformRows p1 cols → UniformRows p2 cols → p1.length = p2.length →
      e < p1.length → d < cols →
      cell p1 e d = cell base e d → cell p2 e d = cell base e d →
      cell (crossover_uniform p1 p2 rate rnd).1 e d = cell base e d ∧
      cell (crossover_uniform p1 p2 rate rnd).2 e d = cell base e d) := by
  refine ⟨?_, ?_, ?_, ?_⟩
  · intro si choose hbase hok
    unfold create_individual
    rw [hbase, createGo_preserves_fixed hok _ _ _ hfix]
  · intro child cols mutation_rate gene_ratio r choose hu he hd hok hagree
    rw [mutation_preserves_fixed hu mutation_rate gene_ratio r hok he hd
      (by rw [hagree]; exact hfix), hagree]
  · intro schedule si choose hok hagree
    unfold holiday_fix
    rw [holidayFixGo_preserves_fixed hok _ _ _ (by rw [hagree]; exact hfix), hagree]
  · intro p1 p2 cols rate rnd hu1 hu2 hlen he hd h1 h2
    have hcols : (p1.headD []).length = cols := by
      cases p1 with
      | nil => cases he
      | cons row rest => exact hu1 row (List.mem_cons_self _ _)
    have hflen : p1.flatten.length = p2.flatten.length := by
      rw [flatten_length_uniform hu1, flatten_length_uniform hu2, hlen]
    have hj : e * cols + d < p1.flatten.length := by
      rw [flatten_length_uniform hu1]; exact flat_index_lt he hd
    have hget := crossFlat_getD rate rnd hflen 0 (e * cols + d) hj
    have hf1 : p1.flatten.getD (e * cols + d) 0 = cell p1 e d := flatten_getD hu1 he hd
    have hf2 : p2.flatten.getD (e * cols + d) 0 = cell p2 e d :=
      flatten_getD hu2 (hlen ▸ he) hd
    have hagree : p1.flatten.getD (e * cols + d) 0 = p2.flatten.getD (e * cols + d) 0 := by
      rw [hf1, hf2, h1, h2]
    constructor
    · show cell (reshapeRows p1.length (p1.headD []).length _) e d = cell base e d
      rw [hcols, cell_reshapeRows he hd, hget.1, if_neg (fun hc => hc.1 hagree), hf1, h1]
    · show cell (reshapeRows p1.length (p1.headD []).length _) e d = cell base e d
      rw [hcols, cell_reshapeRows he hd, hget.2, if_neg (fun hc => hc.1 hagree), hf2, h2]

/-- A concrete `np.random.choice` oracle: take the first `k` pool entries. -/
def takeChoose : ChooseFn := fun pool k => pool.take k

theorem takeChoose_ok : ChooseOK takeChoose := by
  intro pool k hnd hk
  refine ⟨hnd.sublist (List.take_sublist _ _), ?_, fun i hi => List.mem_of_mem_take hi⟩
  show (pool.take k).length = k
  rw [List.length_take]
  omega

/-- Witness for C1: a base schedule with a fixed cell, run through
`create_individual`, `mutation`, `holiday_fix`, and `crossover_uniform`. -/
theorem operators_preserve_fixed_cells_witness :
    cell (create_individual
      ⟨2, 3, [⟨0, "A", 2⟩, ⟨1, "B", 1⟩], [2, 2, 2], [[0, 2, 0], [0, 0, 3]]⟩
      (fun _ => takeChoose)) 0 1 = 2 ∧
    cell (mutation [[0, 2, 0], [1, 0, 3]] (1/2) (1/10) 1 takeChoose) 0 1 = 2 ∧
    cell (holiday_fix [[0, 2, 0], [1, 0, 3]]
      ⟨2, 3, [⟨0, "A", 2⟩, ⟨1, "B", 1⟩], [2, 2, 2], [[0, 2, 0], [0, 0, 3]]⟩
      (fun _ => takeChoose)) 0 1 = 2 ∧
    cell (crossover_uniform [[0, 2, 0], [1, 0, 3]] [[1, 2, 0], [0, 0, 3]]
      (1/2) (fun _ => 0)).1 0 1 = 2 := by
  have hfix : cell [[0, 2, 0], [0, 0, 3]] 0 1 = 2 ∨ cell [[0, 2, 0], [0, 0, 3]] 0 1 = 3 :=
    Or.inl (by decide)
  have h := operators_preserve_fixed_cells [[0, 2, 0], [0, 0, 3]] hfix
  refine ⟨?_, ?_, ?_, ?_⟩
  · rw [h.1 _ (fun _ => takeChoose) rfl (fun _ => takeChoose_ok)]; decide
  · rw [h.2.1 [[0, 2, 0], [1, 0, 3]] 3 (1/2) (1/10) 1 takeChoose (by decide) (by decide)
      (by decide) takeChoose_ok (by decide)]
    decide
  · rw [h.2.2.1 [[0, 2, 0], [1, 0, 3]] _ (fun _ => takeChoose) (fun _ => takeChoose_ok)
      (by decide)]
    decide
  · exact (h.2.2.2 [[0, 2, 0], [1, 0, 3]] [[1, 2, 0], [0, 0, 3]] 3 (1/2) (fun _ => 0)
      (by decide) (by decide) (by decide) (by decide) (by decide) (by decide) (by decide)).1.trans
      (by decide)

/-! ## Quota repair: `holiday_fix` hits the quota exactly (claim C2) -/

/-- Rest-day count used by the spec: cells coded 1, 2 or 3. -/
def count123 : List ℕ → ℕ
  | [] => 0
  | v :: rest => (if v = 1 ∨ v = 2 ∨ v = 3 then 1 else 0) + count123 rest

theorem count123_eq_count_nonzero {l : List ℕ} (h3 : ∀ v ∈ l, v ≤ 3) :
    count123 l = count_nonzero l := by
  induction l with
  | nil => rfl
  | cons v rest ih =>
    have hv := h3 v (List.mem_cons_self _ _)
    have hrest := ih (fun w hw => h3 w (List.mem_cons_of_mem _ hw))
    by_cases h0 : v = 0
    · simp [count123, count_nonzero, h0, hrest]
    · have hcases : v = 1 ∨ v = 2 ∨ v = 3 := by omega
      simp [count123, count_nonzero, hcases, h0, hrest]

theorem mem_fixRow {x : ℕ} {ch : ChooseFn} {row : List ℕ} {target : ℕ}
    (h : x ∈ fixRow ch row target) : x ∈ row ∨ x = 0 ∨ x = 1 := by
  simp only [fixRow] at h
  split at h
  · exact Or.inl h
  · split at h
    · split at h
      · rcases mem_setAll h with h' | h'
        · exact Or.inl h'
        · exact Or.inr (Or.inl h')
      · rcases mem_setAll h with h' | h'
        · exact Or.inl h'
        · exact Or.inr (Or.inl h')
    · split at h
      · rcases mem_setAll h with h' | h'
        · exact Or.inl h'
        · exact Or.inr (Or.inr h')
      · rcases mem_setAll h with h' | h'
        · exact Or.inl h'
        · exact Or.inr (Or.inr h')

/-- Over quota with enough code-1 cells: `fixRow` lands exactly on the target. -/
theorem count_nonzero_fixRow_over {ch : ChooseFn} (hok : ChooseOK ch) {row : List ℕ}
    {target : ℕ} (hover : target < count_nonzero row)
    (hheld : count_nonzero row - target ≤ (whereIdx (fun v => v == 1) row).length) :
    count_nonzero (fixRow ch row target) = target := by
  simp only [fixRow]
  rw [if_neg (by omega), if_pos hover, if_pos hheld]
  have hvc := hok _ _ (nodup_whereIdx (fun v => v == 1) row) hheld
  have hin : ∀ i ∈ ch (whereIdx (fun v => v == 1) row) (count_nonzero row - target),
      i < row.length ∧ row.getD i 0 = 1 := by
    intro i hi
    have hw := mem_whereIdx.1 (hvc.2.2 _ hi)
    exact ⟨hw.1, by simpa using hw.2⟩
  have hcount := count_nonzero_setAll_zero hvc.1 hin
  rw [hvc.2.1] at hcount
  omega

/-- Under quota with enough code-0 cells: `fixRow` lands exactly on the target. -/
theorem count_nonzero_fixRow_under {ch : ChooseFn} (hok : ChooseOK ch) {row : List ℕ}
    {target : ℕ} (hunder : count_nonzero row < target)
    (hwork : target - count_nonzero row ≤ (whereIdx (fun v => v == 0) row).length) :
    count_nonzero (fixRow ch row target) = target := by
  simp only [fixRow]
  rw [if_neg (by omega), if_neg (by omega), if_pos hwork]
  have hvc := hok _ _ (nodup_whereIdx (fun v => v == 0) row) hwork
  have hin : ∀ i ∈ ch (whereIdx (fun v => v == 0) row) (target - count_nonzero row),
      i < row.length ∧ row.getD i 0 = 0 := by
    intro i hi
    have hw := mem_whereIdx.1 (hvc.2.2 _ hi)
    exact ⟨hw.1, by simpa using hw.2⟩
  have hcount := count_nonzero_setAll_one hvc.1 hin
  rw [hvc.2.1] at hcount
  omega

theorem holidayFixGo_append (choose : ℕ → ChooseFn) (xs ys : List EmployeeInfo)
    (k : ℕ) (m : Mat) :
    holidayFixGo choose k (xs ++ ys) m =
      holidayFixGo choose (k + xs.length) ys (holidayFixGo choose k xs m) := by
  induction xs generalizing k m with
  | nil => simp [holidayFixGo]
  | cons emp rest ih =>
    show holidayFixGo choose (k + 1) (rest ++ ys) _ = _
    rw [ih, show k + 1 + rest.length = k + (rest.length + 1) by omega]
    rfl

theorem holidayFixGo_length (choose : ℕ → ChooseFn) (emps : List EmployeeInfo)
    (k : ℕ) (m : Mat) : (holidayFixGo choose k emps m).length = m.length := by
  induction emps generalizing k m with
  | nil => rfl
  | cons emp rest ih =>
    show (holidayFixGo choose (k + 1) rest _).length = m.length
    rw [ih, List.length_set]

theorem holidayFixGo_getD_of_ne (choose : ℕ → ChooseFn) {emps : List EmployeeInfo} {i : ℕ}
    (h : ∀ emp ∈ emps, emp.index ≠ i) (k : ℕ) (m : Mat) :
    (holidayFixGo choose k emps m).getD i [] = m.getD i [] := by
  induction emps generalizing k m with
  | nil => rfl
  | cons emp rest ih =>
    show (holidayFixGo choose (k + 1) rest _).getD i [] = m.getD i []
    rw [ih (fun e he => h e (List.mem_cons_of_mem _ he)),
      getD_set_ne' _ _ _ _ _ (h emp (List.mem_cons_self _ _))]

/-- The row an employee with a unique index gets out of `holiday_fix` is
exactly `fixRow` of its input row, for the oracle of its position. -/
theorem holiday_fix_row (schedule : Mat) (si : ShiftInput) (choose : ℕ → ChooseFn)
    (hnd : (si.employees.map EmployeeInfo.index).Nodup)
    {emp : EmployeeInfo} (hmem : emp ∈ si.employees) (hlt : emp.index < schedule.length) :
    ∃ k, (holiday_fix schedule si choose).getD emp.index [] =
      fixRow (choose k) (schedule.getD emp.index []) emp.required_holidays := by
  obtain ⟨pre, post, hsplit⟩ := List.append_of_mem hmem
  refine ⟨pre.length, ?_⟩
  have hpre : ∀ e ∈ pre, e.index ≠ emp.index := by
    intro e he heq
    have : (pre.map EmployeeInfo.index ++
        emp.index :: post.map EmployeeInfo.index).Nodup := by
      simpa [hsplit] using hnd
    exact (List.disjoint_of_nodup_append this) (heq ▸ List.mem_map_of_mem _ he)
      (List.mem_cons_self _ _)
  have hpost : ∀ e ∈ post, e.index ≠ emp.index := by
    intro e he heq
    have h2 : (emp.index :: post.map EmployeeInfo.index).Nodup :=
      ((List.nodup_append).1 (by simpa [hsplit] using hnd)).2.1
    exact (List.nodup_cons.1 h2).1 (heq ▸ List.mem_map_of_mem _ he)
  unfold holiday_fix
  rw [hsplit, holidayFixGo_append]
  have hrowpre : (holidayFixGo choose 0 pre schedule).getD emp.index [] =
      schedule.getD emp.index [] := holidayFixGo_getD_of_ne choose hpre 0 schedule
  show (holidayFixGo choose (0 + pre.length + 1) post _).getD emp.index [] = _
  rw [holidayFixGo_getD_of_ne choose hpost, getD_set_self', hrowpre, Nat.zero_add]
  rw [holidayFixGo_length]
  exact hlt

/-- C2: for an employee whose row is over quota with at least `diff` many
code-1 cells, or under quota with at least `need` many code-0 cells,
`holiday_fix` makes the count of codes {1,2,3} in that employee's row equal
the contract quota exactly. -/
theorem holiday_fix_quota_exact (schedule : Mat) (si : ShiftInput) (choose : ℕ → ChooseFn)
    (hok : ∀ k, ChooseOK (choose k))
    (hnd : (si.employees.map EmployeeInfo.index).Nodup)
    {emp : EmployeeInfo} (hmem : emp ∈ si.employees)
    (hlt : emp.index < schedule.length)
    (h3 : ∀ v ∈ schedule.getD emp.index [], v ≤ 3)
    (hcase : (emp.required_holidays < count_nonzero (schedule.getD emp.index []) ∧
        count_nonzero (schedule.getD emp.index []) - emp.required_holidays ≤
          (whereIdx (fun v => v == 1) (schedule.getD emp.index [])).length) ∨
      (count_nonzero (schedule.getD emp.index []) < emp.required_holidays ∧
        emp.required_holidays - count_nonzero (schedule.getD emp.index []) ≤
          (whereIdx (fun v => v == 0) (schedule.getD emp.index [])).length)) :
    count123 ((holiday_fix schedule si choose).getD emp.index []) =
      emp.required_holidays := by
  obtain ⟨k, hrow⟩ := holiday_fix_row schedule si choose hnd hmem hlt
  rw [hrow]
  have h3' : ∀ v ∈ fixRow (choose k) (schedule.getD emp.index []) emp.required_holidays,
      v ≤ 3 := by
    intro v hv
    rcases mem_fixRow hv with h | h | h
    · exact h3 v h
    · omega
    · omega
  rw [count123_eq_count_nonzero h3']
  rcases hcase with ⟨hover, hheld⟩ | ⟨hunder, hwork⟩
  · exact count_nonzero_fixRow_over (hok k) hover hheld
  · exact count_nonzero_fixRow_under (hok k) hunder hwork

/-- Witness for C2: one over-quota and one under-quota employee both end
exactly on quota. -/
theorem holiday_fix_quota_exact_witness :
    count123 ((holiday_fix [[1, 1, 1, 0], [0, 0, 0, 2]]
      ⟨2, 4, [⟨0, "A", 2⟩, ⟨1, "B", 2⟩], [2, 2, 2, 2], [[0, 0, 0, 0], [0, 0, 0, 2]]⟩
      (fun _ => takeChoose)).getD 0 []) = 2 := by
  have h := holiday_fix_quota_exact [[1, 1, 1, 0], [0, 0, 0, 2]]
    ⟨2, 4, [⟨0, "A", 2⟩, ⟨1, "B", 2⟩], [2, 2, 2, 2], [[0, 0, 0, 0], [0, 0, 0, 2]]⟩
    (fun _ => takeChoose) (fun _ => takeChoose_ok) (by decide)
    (show (⟨0, "A", 2⟩ : EmployeeInfo) ∈ _ from by decide) (by decide) (by decide)
    (Or.inl (by decide))
  exact h

/-! ## Seeding under infeasible quotas (claim C4) -/

theorem createGo_append (choose : ℕ → ChooseFn) (xs ys : List EmployeeInfo)
    (k : ℕ) (m : Mat) :
    createGo choose k (xs ++ ys) m =
      createGo choose (k + xs.length) ys (createGo choose k xs m) := by
  induction xs generalizing k m with
  | nil => simp [createGo]
  | cons emp rest ih =>
    show createGo choose (k + 1) (rest ++ ys) _ = _
    rw [ih, show k + 1 + rest.length = k + (rest.length + 1) by omega]
    rfl

theorem createGo_getD_of_ne (choose : ℕ → ChooseFn) {emps : List EmployeeInfo} {i : ℕ}
    (h : ∀ emp ∈ emps, emp.index ≠ i) (k : ℕ) (m : Mat) :
    (createGo choose k emps m).getD i [] = m.getD i [] := by
  induction emps generalizing k m with
  | nil => rfl
  | cons emp rest ih =>
    simp only [createGo]
    rw [ih (fun e he => h e (List.mem_cons_of_mem _ he))]
    split
    · rw [getD_set_ne' _ _ _ _ _ (h emp (List.mem_cons_self _ _))]
    · rfl

/-- C4 (amended): when an employee's remaining rest-day need exceeds the
number of code-0 cells in their row, `create_individual` leaves that row
entirely unchanged (it assigns nothing there, and raises no error — the
function is total). -/
theorem create_individual_insufficient_skips_row (si : ShiftInput)
    (choose : ℕ → ChooseFn)
    (hnd : (si.employees.map EmployeeInfo.index).Nodup)
    {emp : EmployeeInfo} (hmem : emp ∈ si.employees)
    (hshort : (whereIdx (fun v => v == 0) (si.base_schedule.getD emp.index [])).length <
      emp.required_holidays - count_nonzero (si.base_schedule.getD emp.index [])) :
    (create_individual si choose).getD emp.index [] =
      si.base_schedule.getD emp.index [] := by
  obtain ⟨pre, post, hsplit⟩ := List.append_of_mem hmem
  have hpre : ∀ e ∈ pre, e.index ≠ emp.index := by
    intro e he heq
    have : (pre.map EmployeeInfo.index ++
        emp.index :: post.map EmployeeInfo.index).Nodup := by
      simpa [hsplit] using hnd
    exact (List.disjoint_of_nodup_append this) (heq ▸ List.mem_map_of_mem _ he)
      (List.mem_cons_self _ _)
  have hpost : ∀ e ∈ post, e.index ≠ emp.index := by
    intro e he heq
    have h2 : (emp.index :: post.map EmployeeInfo.index).Nodup :=
      ((List.nodup_append).1 (by simpa [hsplit] using hnd)).2.1
    exact (List.nodup_cons.1 h2).1 (heq ▸ List.mem_map_of_mem _ he)
  unfold create_individual
  rw [hsplit, createGo_append]
  have hrowpre : (createGo choose 0 pre si.base_schedule).getD emp.index [] =
      si.base_schedule.getD emp.index [] := createGo_getD_of_ne choose hpre 0 _
  simp only [createGo]
  rw [createGo_getD_of_ne choose hpost, hrowpre, if_neg (by omega), hrowpre]

/-- Counterexample to C4 as stated: one code-0 cell available, two more rest
days needed; the claim says the cell is set to 1, but `create_individual`
leaves the row untouched. -/
theorem create_individual_insufficient_counterexample :
    create_individual ⟨1, 3, [⟨0, "A", 4⟩], [1, 1, 1], [[0, 2, 2]]⟩
      (fun _ => takeChoose) = [[0, 2, 2]] ∧
    cell (create_individual ⟨1, 3, [⟨0, "A", 4⟩], [1, 1, 1], [[0, 2, 2]]⟩
      (fun _ => takeChoose)) 0 0 = 0 := by
  constructor <;> decide

/-- Witness for C4 (amended): the same input, derived through the theorem. -/
theorem create_individual_insufficient_skips_row_witness :
    (create_individual ⟨1, 3, [⟨0, "A", 4⟩], [1, 1, 1], [[0, 2, 2]]⟩
      (fun _ => takeChoose)).getD 0 [] = [0, 2, 2] := by
  have h := create_individual_insufficient_skips_row
    ⟨1, 3, [⟨0, "A", 4⟩], [1, 1, 1], [[0, 2, 2]]⟩ (fun _ => takeChoose) (by decide)
    (show (⟨0, "A", 4⟩ : EmployeeInfo) ∈ _ from by decide) (by decide)
  exact h.trans (by decide)

/-! ## Mutation selection semantics (claims C5 and C9) -/

/-- C9: whenever the per-individual coin succeeds and at least one cell holds
code 0 or 1, the mutation operator flips at least one such cell — the
selection count `max(1, int(len(mutable) * gene_ratio))` has a floor of one,
so some mutable cell changes even for `gene_ratio = 0`. -/
theorem mutation_flips_at_least_one {child : Mat} {cols : ℕ} (hu : UniformRows child cols)
    {mutation_rate gene_ratio r : ℚ} (htrig : ¬ mutation_rate ≤ r)
    {choose : ChooseFn} (hok : ChooseOK choose)
    (hmut : whereIdx (fun v => v == 0 || v == 1) child.flatten ≠ []) :
    ∃ e d, e < child.length ∧ d < cols ∧
      (cell child e d = 0 ∨ cell child e d = 1) ∧
      cell (mutation child mutation_rate gene_ratio r choose) e d ≠ cell child e d := by
  have hlenpos : 0 < (whereIdx (fun v => v == 0 || v == 1) child.flatten).length :=
    List.length_pos.2 hmut
  have hk1 : (1 : ℤ) ≤ max 1 (pyInt
      (((whereIdx (fun v => v == 0 || v == 1) child.flatten).length : ℚ) * gene_ratio)) :=
    le_max_left _ _
  have hkpos : 0 < min (max 1 (pyInt
      (((whereIdx (fun v => v == 0 || v == 1) child.flatten).length : ℚ) *
        gene_ratio))).toNat (whereIdx (fun v => v == 0 || v == 1) child.flatten).length := by
    have := Int.toNat_le_toNat hk1
    simp only [Int.toNat_one] at this
    omega
  have hvc := hok (whereIdx (fun v => v == 0 || v == 1) child.flatten)
    (min (max 1 (pyInt
      (((whereIdx (fun v => v == 0 || v == 1) child.flatten).length : ℚ) *
        gene_ratio))).toNat
      (whereIdx (fun v => v == 0 || v == 1) child.flatten).length)
    (nodup_whereIdx _ _) (min_le_right _ _)
  have hchne : choose (whereIdx (fun v => v == 0 || v == 1) child.flatten)
      (min (max 1 (pyInt
        (((whereIdx (fun v => v == 0 || v == 1) child.flatten).length : ℚ) *
          gene_ratio))).toNat
        (whereIdx (fun v => v == 0 || v == 1) child.flatten).length) ≠ [] := by
    intro hnil
    rw [hnil] at hvc
    have := hvc.2.1
    simp only [List.length_nil] at this
    omega
  obtain ⟨j, hj⟩ := List.exists_mem_of_ne_nil _ hchne
  have hjmi := hvc.2.2 _ hj
  have hjw := mem_whereIdx.1 hjmi
  have hjval : child.flatten.getD j 0 = 0 ∨ child.flatten.getD j 0 = 1 := by
    have := hjw.2
    rcases Bool.or_eq_true_iff.1 this with h | h
    · exact Or.inl (by simpa using h)
    · exact Or.inr (by simpa using h)
  have hflen : child.flatten.length = child.length * cols := flatten_length_uniform hu
  have hcolpos : 0 < cols := by
    rcases Nat.eq_zero_or_pos cols with h | h
    · rw [h, Nat.mul_zero] at hflen
      omega
    · exact h
  have hjlt : j < child.flatten.length := hjw.1
  refine ⟨j / cols, j % cols, ?_, Nat.mod_lt _ hcolpos, ?_, ?_⟩
  · rw [Nat.div_lt_iff_lt_mul hcolpos]
    omega
  · have hcell : cell child (j / cols) (j % cols) = child.flatten.getD j 0 := by
      rw [← flatten_getD hu (by rw [Nat.div_lt_iff_lt_mul hcolpos]; omega)
        (Nat.mod_lt _ hcolpos)]
      congr 1
      rw [mul_comm (j / cols) cols]
      exact Nat.div_add_mod j cols
    rw [hcell]
    exact hjval
  · have hrows : 0 < child.length := by
      by_contra hz
      rw [Nat.eq_zero_of_not_pos hz, Nat.zero_mul] at hflen
      omega
    have hcols' : (child.headD []).length = cols := by
      cases child with
      | nil => cases hrows
      | cons row rest => exact hu row (List.mem_cons_self _ _)
    have hmeq : mutation child mutation_rate gene_ratio r choose =
        reshapeRows child.length ((child.headD []).length)
          ((choose (whereIdx (fun v => v == 0 || v == 1) child.flatten)
            (min (max 1 (pyInt
              (((whereIdx (fun v => v == 0 || v == 1) child.flatten).length : ℚ) *
                gene_ratio))).toNat
              (whereIdx (fun v => v == 0 || v == 1) child.flatten).length)).foldl
            flipAt child.flatten) := by
      simp only [mutation]
      rw [if_neg htrig, if_neg (by omega)]
    have hdivlt : j / cols < child.length := by
      rw [Nat.div_lt_iff_lt_mul hcolpos]
      omega
    have hidx : j / cols * cols + j % cols = j := by
      rw [mul_comm (j / cols) cols]
      exact Nat.div_add_mod j cols
    rw [hmeq, hcols', cell_reshapeRows hdivlt (Nat.mod_lt _ hcolpos), hidx,
      getD_foldl_flipAt_mem hvc.1 hj _ hjlt]
    have hcell : cell child (j / cols) (j % cols) = child.flatten.getD j 0 := by
      rw [← flatten_getD hu hdivlt (Nat.mod_lt _ hcolpos), hidx]
    rw [hcell]
    rcases hjval with h | h <;> rw [h] <;> simp [flipVal]

/-- Witness for C9: a triggered mutation on an all-zero 1×3 schedule with
`gene_ratio = 0` still flips a cell. -/
theorem mutation_flips_at_least_one_witness :
    ∃ e d, e < ([[0, 0, 0]] : Mat).length ∧ d < 3 ∧
      (cell [[0, 0, 0]] e d = 0 ∨ cell [[0, 0, 0]] e d = 1) ∧
      cell (mutation [[0, 0, 0]] 1 0 0 takeChoose) e d ≠ cell [[0, 0, 0]] e d :=
  mutation_flips_at_least_one (by decide) (by norm_num) takeChoose_ok (by decide)

/-- C5 (amended): the mutation operator is the identity when the
per-individual coin fails (in particular for `mutation_rate = 0`, since the
uniform draw is nonnegative) and when no cell holds 0 or 1; when it fires, it
selects `min(max(1, int(gene_ratio * mutableCount)), mutableCount)` distinct
cells — a `gene_ratio` fraction of the **mutable** (code 0/1) cells with a
floor of one, not a fraction of all cells — drawn from the code-0/1 cells
only, flips every selected cell, and leaves every other cell unchanged. -/
theorem mutation_selection_semantics (child : Mat) (cols : ℕ)
    (mutation_rate gene_ratio r : ℚ) (choose : ChooseFn) :
    (mutation_rate ≤ r → mutation child mutation_rate gene_ratio r choose = child) ∧
    (0 ≤ r → mutation child 0 gene_ratio r choose = child) ∧
    (¬ mutation_rate ≤ r → ChooseOK choose → UniformRows child cols →
      (whereIdx (fun v => v == 0 || v == 1) child.flatten = [] →
        mutation child mutation_rate gene_ratio r choose = child) ∧
      (whereIdx (fun v => v == 0 || v == 1) child.flatten ≠ [] →
        ∃ S : List ℕ, S.Nodup ∧
          S.length = min (max 1 (pyInt
            (((whereIdx (fun v => v == 0 || v == 1) child.flatten).length : ℚ) *
              gene_ratio))).toNat
            (whereIdx (fun v => v == 0 || v == 1) child.flatten).length ∧
          (∀ j ∈ S, child.flatten.getD j 0 = 0 ∨ child.flatten.getD j 0 = 1) ∧
          (∀ e d, e < child.length → d < cols →
            cell (mutation child mutation_rate gene_ratio r choose) e d =
              if e * cols + d ∈ S then flipVal (cell child e d)
              else cell child e d))) := by
  refine ⟨?_, ?_, ?_⟩
  · intro h
    simp only [mutation]
    rw [if_pos h]
  · intro h
    simp only [mutation]
    rw [if_pos h]
  · intro htrig hok hu
    constructor
    · intro hempty
      simp only [mutation]
      rw [if_neg htrig, if_pos (by rw [hempty]; rfl)]
    · intro hne
      have hlenpos : 0 < (whereIdx (fun v => v == 0 || v == 1) child.flatten).length :=
        List.length_pos.2 hne
      have hvc := hok (whereIdx (fun v => v == 0 || v == 1) child.flatten)
        (min (max 1 (pyInt
          (((whereIdx (fun v => v == 0 || v == 1) child.flatten).length : ℚ) *
            gene_ratio))).toNat
          (whereIdx (fun v => v == 0 || v == 1) child.flatten).length)
        (nodup_whereIdx _ _) (min_le_right _ _)
      refine ⟨_, hvc.1, hvc.2.1, ?_, ?_⟩
      · intro j hj
        have hw := mem_whereIdx.1 (hvc.2.2 _ hj)
        rcases Bool.or_eq_true_iff.1 hw.2 with h | h
        · exact Or.inl (by simpa using h)
        · exact Or.inr (by simpa using h)
      · intro e d he hd
        have hcols' : (child.headD []).length = cols := by
          cases child with
          | nil => cases he
          | cons row rest => exact hu row (List.mem_cons_self _ _)
        have hmeq : mutation child mutation_rate gene_ratio r choose =
            reshapeRows child.length ((child.headD []).length)
              ((choose (whereIdx (fun v => v == 0 || v == 1) child.flatten)
                (min (max 1 (pyInt
                  (((whereIdx (fun v => v == 0 || v == 1) child.flatten).length : ℚ) *
                    gene_ratio))).toNat
                  (whereIdx (fun v => v == 0 || v == 1) child.flatten).length)).foldl
                flipAt child.flatten) := by
          simp only [mutation]
          rw [if_neg htrig, if_neg (by omega)]
        have hcell : child.flatten.getD (e * cols + d) 0 = cell child e d :=
          flatten_getD hu he hd
        rw [hmeq, hcols', cell_reshapeRows he hd]
        by_cases hmemS : e * cols + d ∈ choose
          (whereIdx (fun v => v == 0 || v == 1) child.flatten)
          (min (max 1 (pyInt
            (((whereIdx (fun v => v == 0 || v == 1) child.flatten).length : ℚ) *
              gene_ratio))).toNat
            (whereIdx (fun v => v == 0 || v == 1) child.flatten).length)
        · rw [if_pos hmemS, getD_foldl_flipAt_mem hvc.1 hmemS _
            (mem_whereIdx.1 (hvc.2.2 _ hmemS)).1, hcell]
        · rw [if_neg hmemS, getD_foldl_flipAt_not_mem hmemS, hcell]

/-- Counterexample to C5 as stated: `gene_ratio = 0` on a 1×10 all-zero
schedule.  The claim's selection count — a `gene_ratio` fraction of **all**
cells, `int(10 * 0) = 0` — implies no cell is flipped, but the triggered
operator flips one cell (the code's count is
`max(1, int(gene_ratio * mutableCount))`). -/
theorem mutation_selection_counterexample :
    mutation [[0, 0, 0, 0, 0, 0, 0, 0, 0, 0]] 1 0 0 takeChoose ≠
      [[0, 0, 0, 0, 0, 0, 0, 0, 0, 0]] ∧
    pyInt ((([[0, 0, 0, 0, 0, 0, 0, 0, 0, 0]] : Mat).flatten.length : ℚ) * 0) = 0 := by
  have key : ∀ n : ℕ, (max 1 (pyInt ((n : ℚ) * 0))).toNat = 1 := by
    intro n
    rw [mul_zero]
    simp [pyInt]
  have hval : mutation [[0, 0, 0, 0, 0, 0, 0, 0, 0, 0]] 1 0 0 takeChoose =
      [[1, 0, 0, 0, 0, 0, 0, 0, 0, 0]] := by
    simp only [mutation]
    rw [if_neg (by norm_num : ¬ (1 : ℚ) ≤ 0),
      if_neg (by decide : ¬ (whereIdx (fun v => v == 0 || v == 1)
        (List.flatten [[0, 0, 0, 0, 0, 0, 0, 0, 0, 0]])).length = 0), key]
    decide
  constructor
  · rw [hval]
    decide
  · rw [mul_zero]
    simp [pyInt]

/-- Witness for C5 (amended): a concrete triggered mutation where the
selection size is forced to one cell out of ten mutable cells. -/
theorem mutation_selection_semantics_witness :
    mutation [[0, 2, 0]] (1/2) (1/10) (3/4) takeChoose = [[0, 2, 0]] := by
  have h := (mutation_selection_semantics [[0, 2, 0]] 3 (1/2) (1/10) (3/4) takeChoose).1
    (by norm_num)
  exact h

/-! ## Constraint evaluation (`ga_shift/ga/evaluation.py`,
`ga_shift/constraints/day_constraints.py`) -/

/-- Result of one penalty function (`constraints/base.py:PenaltyResult`). -/
structure PenaltyResult where
  penalty : ℚ
  details : String

/-- The view handed to penalty functions (`models/schedule.py:ScheduleContext`). -/
structure ScheduleContext where
  schedule : Mat
  shift_input : ShiftInput

def ScheduleContext.num_employees (ctx : ScheduleContext) : ℕ :=
  ctx.shift_input.num_employees

def ScheduleContext.num_days (ctx : ScheduleContext) : ℕ :=
  ctx.shift_input.num_days

/-- `np.where(schedule == 2, 1, schedule)`: code 2 folds into code 1. -/
def ScheduleContext.binary_schedule (ctx : ScheduleContext) : Mat :=
  ctx.schedule.map (List.map (fun v => if v = 2 then 1 else v))

abbrev PenaltyFunction := ScheduleContext → PenaltyResult

/-- A compiled constraint (`constraints/base.py:CompiledConstraint`), without
the parameter dictionary, which the evaluator never reads. -/
structure CompiledConstraint where
  template_id : String
  name_ja : String
  penalty_fn : PenaltyFunction

/-- Python `sep.join(parts)`. -/
def joinSep (sep : String) : List String → String
  | [] => ""
  | [s] => s
  | s :: rest => s ++ sep ++ joinSep sep rest

/-- One day of `RequiredWorkersMatch`'s penalty loop. -/
def rwmStep (penalty_per_diff : ℚ) (binary : Mat) (nE : ℕ) (required : List ℤ)
    (acc : ℚ × List String) (day_idx : ℕ) : ℚ × List String :=
  let holiday_count : ℕ := (binary.map (fun row => row.getD day_idx 0)).sum
  let workers : ℤ := (nE : ℤ) - holiday_count
  let req : ℤ := required.getD day_idx 0
  let diff : ℤ := |workers - req|
  if 0 < diff then
    (acc.1 + (diff : ℚ) * penalty_per_diff,
     acc.2 ++ [s!"{day_idx + 1}日: {workers}人(必要{req}人)"])
  else acc

/-- `RequiredWorkersMatch.compile({penalty_per_diff})`: per day, penalize the
absolute difference between worked headcount and the required curve. -/
def requiredWorkersMatch_fn (penalty_per_diff : ℚ) (ctx : ScheduleContext) :
    PenaltyResult :=
  let res := (List.range ctx.num_days).foldl
    (rwmStep penalty_per_diff ctx.binary_schedule ctx.num_employees
      ctx.shift_input.required_workers) (0, [])
  ⟨res.1, joinSep "; " res.2⟩

/-- `evaluate_with_constraints(schedule, shift_input, constraints)`:
sum every penalty once, return the negated total and per-constraint results. -/
def evaluate_with_constraints (schedule : Mat) (si : ShiftInput)
    (constraints : List CompiledConstraint) : ℚ × List (String × PenaltyResult) :=
  let ctx : ScheduleContext := ⟨schedule, si⟩
  let res := constraints.foldl
    (fun (acc : ℚ × List (String × PenaltyResult)) c =>
      (acc.1 + (c.penalty_fn ctx).penalty, acc.2 ++ [(c.template_id, c.penalty_fn ctx)]))
    (0, [])
  (-res.1, res.2)

/-- The per-day absolute headcount deviation, extracted for computation. -/
def rwmDiff (binary : Mat) (nE : ℕ) (required : List ℤ) (day_idx : ℕ) : ℤ :=
  |((nE : ℤ) - ((binary.map (fun row => row.getD day_idx 0)).sum : ℕ)) -
    required.getD day_idx 0|

theorem rwmStep_fst (penalty_per_diff : ℚ) (binary : Mat) (nE : ℕ) (required : List ℤ)
    (acc : ℚ × List String) (day_idx : ℕ) :
    (rwmStep penalty_per_diff binary nE required acc day_idx).1 =
      if 0 < rwmDiff binary nE required day_idx then
        acc.1 + (rwmDiff binary nE required day_idx : ℚ) * penalty_per_diff
      else acc.1 := by
  simp only [rwmStep, rwmDiff]
  split
  · rfl
  · rfl

theorem rwm_fold_fst (penalty_per_diff : ℚ) (binary : Mat) (nE : ℕ) (required : List ℤ)
    (days : List ℕ) (acc : ℚ × List String) :
    ((days.foldl (rwmStep penalty_per_diff binary nE required) acc).1) =
      days.foldl (fun a d => if 0 < rwmDiff binary nE required d then
        a + (rwmDiff binary nE required d : ℚ) * penalty_per_diff else a) acc.1 := by
  induction days generalizing acc with
  | nil => rfl
  | cons d rest ih =>
    rw [List.foldl_cons, List.foldl_cons, ih, rwmStep_fst]

theorem requiredWorkersMatch_fn_penalty (penalty_per_diff : ℚ) (ctx : ScheduleContext) :
    (requiredWorkersMatch_fn penalty_per_diff ctx).penalty =
      (List.range ctx.num_days).foldl
        (fun a d => if 0 < rwmDiff ctx.binary_schedule ctx.num_employees
            ctx.shift_input.required_workers d then
          a + (rwmDiff ctx.binary_schedule ctx.num_employees
            ctx.shift_input.required_workers d : ℚ) * penalty_per_diff else a) 0 := by
  simp only [requiredWorkersMatch_fn]
  exact rwm_fold_fst _ _ _ _ _ _

/-! ## The concrete staffing scenario (claim C6) -/

/-- 3 employees, 7 days, quota 2 each, 2 required workers every day. -/
def si6 : ShiftInput :=
  ⟨3, 7, [⟨0, "A", 2⟩, ⟨1, "B", 2⟩, ⟨2, "C", 2⟩], [2, 2, 2, 2, 2, 2, 2],
    [[0, 0, 0, 0, 0, 0, 0], [0, 0, 0, 0, 0, 0, 0], [0, 0, 0, 0, 0, 0, 0]]⟩

/-- A 3×7 schedule with no rest days at all. -/
def allZero37 : Mat :=
  [[0, 0, 0, 0, 0, 0, 0], [0, 0, 0, 0, 0, 0, 0], [0, 0, 0, 0, 0, 0, 0]]

/-- A 3×7 schedule with exactly one resting employee per day. -/
def oneRestPerDay : Mat :=
  [[1, 0, 0, 1, 0, 0, 1], [0, 1, 0, 0, 1, 0, 0], [0, 0, 1, 0, 0, 1, 0]]

/-- `required_workers_match` compiled with `penalty_per_diff = 4.0`. -/
def rwm4 : CompiledConstraint :=
  ⟨"required_workers_match", "必要出勤人数の充足", requiredWorkersMatch_fn 4⟩

theorem rwm4_allZero_penalty : (requiredWorkersMatch_fn 4 ⟨allZero37, si6⟩).penalty = 28 := by
  rw [requiredWorkersMatch_fn_penalty]
  have hd : ∀ d, d < 7 → rwmDiff (⟨allZero37, si6⟩ : ScheduleContext).binary_schedule
      (⟨allZero37, si6⟩ : ScheduleContext).num_employees
      (⟨allZero37, si6⟩ : ScheduleContext).shift_input.required_workers d = 1 := by decide
  rw [show (⟨allZero37, si6⟩ : ScheduleContext).num_days = 7 from rfl,
    show List.range 7 = [0, 1, 2, 3, 4, 5, 6] from by decide]
  simp only [List.foldl_cons, List.foldl_nil]
  rw [hd 0 (by omega), hd 1 (by omega), hd 2 (by omega), hd 3 (by omega), hd 4 (by omega),
    hd 5 (by omega), hd 6 (by omega)]
  norm_num

theorem rwm4_oneRest_penalty :
    (requiredWorkersMatch_fn 4 ⟨oneRestPerDay, si6⟩).penalty = 0 := by
  rw [requiredWorkersMatch_fn_penalty]
  have hd : ∀ d, d < 7 → rwmDiff (⟨oneRestPerDay, si6⟩ : ScheduleContext).binary_schedule
      (⟨oneRestPerDay, si6⟩ : ScheduleContext).num_employees
      (⟨oneRestPerDay, si6⟩ : ScheduleContext).shift_input.required_workers d = 0 := by decide
  rw [show (⟨oneRestPerDay, si6⟩ : ScheduleContext).num_days = 7 from rfl,
    show List.range 7 = [0, 1, 2, 3, 4, 5, 6] from by decide]
  simp only [List.foldl_cons, List.foldl_nil]
  rw [hd 0 (by omega), hd 1 (by omega), hd 2 (by omega), hd 3 (by omega), hd 4 (by omega),
    hd 5 (by omega), hd 6 (by omega)]
  norm_num

/-- C6: with `required_workers_match` compiled at `penalty_per_diff = 4.0` on
3 employees × 7 days with 2 required workers per day, the all-zero schedule
evaluates to a rule penalty of exactly 28.0 (score contribution −28.0), and a
schedule with exactly one resting employee per day evaluates to penalty 0. -/
theorem required_workers_match_scenario :
    (evaluate_with_constraints allZero37 si6 [rwm4]).1 = -28 ∧
    (evaluate_with_constraints allZero37 si6 [rwm4]).2.map
      (fun p => (p.1, p.2.penalty)) = [("required_workers_match", 28)] ∧
    (evaluate_with_constraints oneRestPerDay si6 [rwm4]).1 = 0 ∧
    (evaluate_with_constraints oneRestPerDay si6 [rwm4]).2.map
      (fun p => (p.1, p.2.penalty)) = [("required_workers_match", 0)] := by
  refine ⟨?_, ?_, ?_, ?_⟩
  · show -((0 : ℚ) + (requiredWorkersMatch_fn 4 ⟨allZero37, si6⟩).penalty) = -28
    rw [rwm4_allZero_penalty]
    norm_num
  · show [("required_workers_match", requiredWorkersMatch_fn 4 ⟨allZero37, si6⟩)].map
      (fun p => (p.1, p.2.penalty)) = [("required_workers_match", (28 : ℚ))]
    simp only [List.map_cons, List.map_nil]
    rw [rwm4_allZero_penalty]
  · show -((0 : ℚ) + (requiredWorkersMatch_fn 4 ⟨oneRestPerDay, si6⟩).penalty) = 0
    rw [rwm4_oneRest_penalty]
    norm_num
  · show [("required_workers_match", requiredWorkersMatch_fn 4 ⟨oneRestPerDay, si6⟩)].map
      (fun p => (p.1, p.2.penalty)) = [("required_workers_match", (0 : ℚ))]
    simp only [List.map_cons, List.map_nil]
    rw [rwm4_oneRest_penalty]

/-! ## Constraint registry (`ga_shift/constraints/registry.py`, claim C7) -/

/-- The identity of a constraint template; `compile` and the parameter
definitions are irrelevant to the registry lookup behavior. -/
structure ConstraintTemplate where
  template_id : String
  name_ja : String
  category : String
deriving Repr, DecidableEq

/-- `ConstraintRegistry._templates`: a Python dict in insertion order. -/
abbrev ConstraintRegistry := List (String × ConstraintTemplate)

/-- `register(template)`: dict assignment keyed by `template.template_id`. -/
def ConstraintRegistry.register (reg : ConstraintRegistry) (t : ConstraintTemplate) :
    ConstraintRegistry :=
  if reg.any (fun p => p.1 == t.template_id) then
    reg.map (fun p => if p.1 == t.template_id then (p.1, t) else p)
  else reg ++ [(t.template_id, t)]

/-- The dict keys, in insertion order. -/
def registeredIds (reg : ConstraintRegistry) : List String := reg.map Prod.fst

/-- `sorted(keys)`. -/
def sortStrings (l : List String) : List String :=
  List.insertionSort (fun a b => a ≤ b) l

/-- `get(template_id)`: a `KeyError` whose message lists every registered id
(sorted, comma-joined) when the id is unknown, the stored template otherwise. -/
def ConstraintRegistry.get (reg : ConstraintRegistry) (template_id : String) :
    Except String ConstraintTemplate :=
  match reg.lookup template_id with
  | some t => Except.ok t
  | none => Except.error ("Unknown constraint template: " ++ template_id ++
      ". Available: " ++ joinSep ", " (sortStrings (registeredIds reg)))

theorem lookup_eq_none_of_not_mem {reg : ConstraintRegistry} {id : String}
    (h : id ∉ registeredIds reg) : reg.lookup id = none := by
  induction reg with
  | nil => rfl
  | cons p rest ih =>
    obtain ⟨k, v⟩ := p
    have hne : (id == k) = false := beq_false_of_ne (fun he => h (by
      rw [he]
      exact List.mem_map_of_mem _ (List.mem_cons_self _ _)))
    have hrest : id ∉ registeredIds rest := fun hm => h (by
      rcases List.mem_map.1 hm with ⟨q, hq, he⟩
      exact he ▸ List.mem_map_of_mem _ (List.mem_cons_of_mem _ hq))
    simp [List.lookup, hne, ih hrest]

theorem lookup_mem {reg : ConstraintRegistry} {id : String} {t : ConstraintTemplate}
    (h : reg.lookup id = some t) : (id, t) ∈ reg := by
  induction reg with
  | nil => cases h
  | cons p rest ih =>
    obtain ⟨k, v⟩ := p
    by_cases he : id = k
    · subst he
      simp only [List.lookup, beq_self_eq_true] at h
      cases h
      exact List.mem_cons_self _ _
    · simp only [List.lookup, beq_false_of_ne he] at h
      exact List.mem_cons_of_mem _ (ih h)

theorem lookup_isSome_of_mem {reg : ConstraintRegistry} {id : String}
    (h : id ∈ registeredIds reg) : ∃ t, reg.lookup id = some t := by
  induction reg with
  | nil => cases h
  | cons p rest ih =>
    obtain ⟨k, v⟩ := p
    by_cases he : id = k
    · subst he
      exact ⟨v, by simp [List.lookup]⟩
    · have hm : id ∈ registeredIds rest := by
        rcases List.mem_cons.1 h with h' | h'
        · exact absurd h' he
        · exact h'
      obtain ⟨t, ht⟩ := ih hm
      exact ⟨t, by simp [List.lookup, beq_false_of_ne he, ht]⟩

theorem data_infix_joinSep (sep : String) :
    ∀ (l : List String), ∀ s ∈ l, s.data <:+: (joinSep sep l).data
  | [], s, hs => by cases hs
  | [x], s, hs => by
    rcases List.mem_cons.1 hs with h | h
    · rw [h]
      exact List.infix_refl _
    · cases h
  | x :: y :: rest, s, hs => by
    have hdata : (joinSep sep (x :: y :: rest)).data =
        x.data ++ sep.data ++ (joinSep sep (y :: rest)).data := by
      show (x ++ sep ++ joinSep sep (y :: rest)).data = _
      rw [String.data_append, String.data_append]
    rcases List.mem_cons.1 hs with h | h
    · refine ⟨[], sep.data ++ (joinSep sep (y :: rest)).data, ?_⟩
      rw [hdata, h]
      simp [List.append_assoc]
    · obtain ⟨u, v, huv⟩ := data_infix_joinSep sep (y :: rest) s h
      refine ⟨x.data ++ sep.data ++ u, v, ?_⟩
      rw [hdata, ← huv]
      simp [List.append_assoc]

/-- C7: looking up an unregistered template id fails with a message that
contains every registered id (they are sorted and comma-joined into it), and
looking up a registered id succeeds with the registered template. -/
theorem registry_get_spec (reg : ConstraintRegistry) (id : String) :
    (id ∉ registeredIds reg →
      ∃ msg, reg.get id = Except.error msg ∧
        ∀ id' ∈ registeredIds reg, id'.data <:+: msg.data) ∧
    (id ∈ registeredIds reg →
      ∃ t, reg.get id = Except.ok t ∧ (id, t) ∈ reg) := by
  constructor
  · intro h
    refine ⟨"Unknown constraint template: " ++ id ++
      ". Available: " ++ joinSep ", " (sortStrings (registeredIds reg)), ?_, ?_⟩
    · unfold ConstraintRegistry.get
      rw [lookup_eq_none_of_not_mem h]
    · intro id' hid'
      have hsorted : id' ∈ sortStrings (registeredIds reg) :=
        ((List.perm_insertionSort _ _).mem_iff).2 hid'
      obtain ⟨u, v, huv⟩ := data_infix_joinSep ", " _ id' hsorted
      refine ⟨("Unknown constraint template: " ++ id ++ ". Available: ").data ++ u, v, ?_⟩
      simp only [String.data_append]
      rw [← huv]
      simp [List.append_assoc]
  · intro h
    obtain ⟨t, ht⟩ := lookup_isSome_of_mem h
    refine ⟨t, ?_, lookup_mem ht⟩
    unfold ConstraintRegistry.get
    rw [ht]

/-- Witness for C7: a two-template registry, one missing and one present id. -/
theorem registry_get_spec_witness :
    (∃ msg, ConstraintRegistry.get
      [("required_workers_match", ⟨"required_workers_match", "必要出勤人数の充足", "day"⟩),
       ("max_consecutive_work", ⟨"max_consecutive_work", "連続勤務の上限", "employee"⟩)]
      "no_such_rule" = Except.error msg ∧
      ∀ id' ∈ registeredIds
        [("required_workers_match", ⟨"required_workers_match", "必要出勤人数の充足", "day"⟩),
         ("max_consecutive_work", ⟨"max_consecutive_work", "連続勤務の上限", "employee"⟩)],
        id'.data <:+: msg.data) ∧
    (∃ t, ConstraintRegistry.get
      [("required_workers_match", ⟨"required_workers_match", "必要出勤人数の充足", "day"⟩),
       ("max_consecutive_work", ⟨"max_consecutive_work", "連続勤務の上限", "employee"⟩)]
      "max_consecutive_work" = Except.ok t ∧
      ("max_consecutive_work", t) ∈
        [("required_workers_match", ⟨"required_workers_match", "必要出勤人数の充足", "day"⟩),
         ("max_consecutive_work", ⟨"max_consecutive_work", "連続勤務の上限", "employee"⟩)]) :=
  ⟨(registry_get_spec _ "no_such_rule").1 (by decide),
   (registry_get_spec _ "max_consecutive_work").2 (by decide)⟩

/-! ## The GA loop (`ga_shift/ga/engine.py:GARunner.run`, claim C3)

The progress callback only observes state (it returns `None` and the loop
ignores it), so it does not appear in the embedding.  Every random draw of a
generation is provided up front by a `GARand` oracle. -/

/-- `models/ga_config.py:GAConfig` (floats as rationals). -/
structure GAConfig where
  initial_population : ℕ := 100
  elite_count : ℕ := 20
  generation_count : ℕ := 50
  crossover_rate : ℚ := 1/2
  mutation_rate : ℚ := 1/20
  mutation_gene_ratio : ℚ := 1/10

/-- `models/schedule.py:ShiftResult`. -/
structure ShiftResult where
  best_schedule : Mat
  best_score : ℚ
  score_history : List ℚ
  generation_count : ℕ

/-- An individual: a (score, schedule) pair. -/
abbrev Ind := ℚ × Mat

/-- `population.sort(key=lambda x: -x[0])`: stable sort, descending score. -/
def sortPop (pop : List Ind) : List Ind :=
  List.insertionSort (fun a b => b.1 ≤ a.1) pop

/-- The randomness consumed by one mutation call. -/
structure MutRand where
  r : ℚ
  choose : ChooseFn

/-- The randomness consumed by breeding one elite pair. -/
structure PairRand where
  coin : ℕ → ℚ
  mut1 : MutRand
  mut2 : MutRand
  fix1 : ℕ → ChooseFn
  fix2 : ℕ → ChooseFn

/-- The randomness consumed by a whole run: per initial individual, and per
(generation, pair-position). -/
structure GARand where
  initChoose : ℕ → ℕ → ChooseFn
  initFix : ℕ → ℕ → ChooseFn
  pair : ℕ → ℕ → PairRand

/-- `itertools.combinations(range(n), 2)` in iteration order. -/
def combinations2 (n : ℕ) : List (ℕ × ℕ) :=
  (List.range n).flatMap (fun k1 => ((List.range n).drop (k1 + 1)).map (fun k2 => (k1, k2)))

def evalScore (schedule : Mat) (si : ShiftInput)
    (constraints : List CompiledConstraint) : ℚ :=
  (evaluate_with_constraints schedule si constraints).1

/-- The loop state: all-time best, recorded history, working population. -/
structure GAState where
  top : Option Ind
  history : List ℚ
  population : List Ind

def dummyInd : Ind := (0, [])

/-- Crossover, two mutations, two repairs, two evaluations for one elite pair. -/
def breedPair (si : ShiftInput) (constraints : List CompiledConstraint) (cfg : GAConfig)
    (pr : PairRand) (p1 p2 : Mat) : List Ind :=
  let ch := crossover_uniform p1 p2 cfg.crossover_rate pr.coin
  let ch1 := mutation ch.1 cfg.mutation_rate cfg.mutation_gene_ratio pr.mut1.r pr.mut1.choose
  let ch2 := mutation ch.2 cfg.mutation_rate cfg.mutation_gene_ratio pr.mut2.r pr.mut2.choose
  let ch1' := holiday_fix ch1 si pr.fix1
  let ch2' := holiday_fix ch2 si pr.fix2
  [(evalScore ch1' si constraints, ch1'), (evalScore ch2' si constraints, ch2')]

/-- All children of one generation's breeding pool. -/
def breedAll (si : ShiftInput) (constraints : List CompiledConstraint) (cfg : GAConfig)
    (pr : ℕ → PairRand) (pool : List Ind) : List Ind :=
  (combinations2 pool.length).enum.flatMap
    (fun pk => breedPair si constraints cfg (pr pk.1)
      (pool.getD pk.2.1 dummyInd).2 (pool.getD pk.2.2 dummyInd).2)

/-- `population[: elite_count]` after the descending sort. -/
def elitesOf (cfg : GAConfig) (st : GAState) : List Ind :=
  (sortPop st.population).take cfg.elite_count

/-- `population[0]` of the truncated pool: the generation best. -/
def genBest (cfg : GAConfig) (st : GAState) : Ind :=
  (elitesOf cfg st).headD dummyInd

/-- One iteration of the generation loop: sort descending, truncate to the
elite count, update the all-time best (re-inserting it into the pool when the
generation best does not beat it), record its score, then breed all pairs. -/
def genStep (si : ShiftInput) (constraints : List CompiledConstraint) (cfg : GAConfig)
    (pr : ℕ → PairRand) (st : GAState) : GAState :=
  match st.top with
  | none =>
    { top := some (genBest cfg st), history := st.history ++ [(genBest cfg st).1],
      population := elitesOf cfg st ++ breedAll si constraints cfg pr (elitesOf cfg st) }
  | some t =>
    if t.1 < (genBest cfg st).1 then
      { top := some (genBest cfg st), history := st.history ++ [(genBest cfg st).1],
        population := elitesOf cfg st ++ breedAll si constraints cfg pr (elitesOf cfg st) }
    else
      { top := some t, history := st.history ++ [t.1],
        population := (elitesOf cfg st ++ [t]) ++
          breedAll si constraints cfg pr (elitesOf cfg st ++ [t]) }

/-- `GARunner.run`. -/
def run (si : ShiftInput) (constraints : List CompiledConstraint) (cfg : GAConfig)
    (rnd : GARand) : ShiftResult :=
  let init := (List.range cfg.initial_population).map (fun j =>
    let ind := create_individual si (rnd.initChoose j)
    let ind' := holiday_fix ind si (rnd.initFix j)
    (evalScore ind' si constraints, ind'))
  let final := (List.range cfg.generation_count).foldl
    (fun st g => genStep si constraints cfg (rnd.pair g) st) ⟨none, [], init⟩
  let best := (sortPop final.population).headD dummyInd
  let best' := match final.top with
    | some t => if best.1 < t.1 then t else best
    | none => best
  ⟨best'.2, best'.1, final.history, cfg.generation_count⟩

instance : IsTotal Ind (fun a b : Ind => b.1 ≤ a.1) :=
  ⟨fun a b => le_total b.1 a.1⟩

instance : IsTrans Ind (fun a b : Ind => b.1 ≤ a.1) :=
  ⟨fun _ _ _ hab hbc => le_trans hbc hab⟩

theorem sortPop_perm (pop : List Ind) : List.Perm (sortPop pop) pop :=
  List.perm_insertionSort _ pop

theorem sortPop_sorted (pop : List Ind) :
    List.Sorted (fun a b : Ind => b.1 ≤ a.1) (sortPop pop) :=
  List.sorted_insertionSort _ pop

/-- The head of the sorted population dominates every member. -/
theorem sortPop_headD_max {pop : List Ind} (hne : pop ≠ []) :
    ∀ x ∈ pop, x.1 ≤ ((sortPop pop).headD dummyInd).1 := by
  intro x hx
  have hmem : x ∈ sortPop pop := ((sortPop_perm pop).mem_iff).2 hx
  have hsorted := sortPop_sorted pop
  cases hs : sortPop pop with
  | nil => rw [hs] at hmem; cases hmem
  | cons h t =>
    rw [hs] at hmem hsorted
    rcases List.mem_cons.1 hmem with h' | h'
    · rw [h']
      exact le_rfl
    · exact List.rel_of_sorted_cons hsorted x h'

/-- Taking at least one element keeps the head. -/
theorem headD_take {l : List Ind} {n : ℕ} (hn : 1 ≤ n) :
    (l.take n).headD dummyInd = l.headD dummyInd := by
  cases l with
  | nil => simp
  | cons a t =>
    cases n with
    | zero => omega
    | succ m => rfl

/-- With at least one elite slot and a nonempty population, the generation
best dominates the whole population. -/
theorem genBest_max {cfg : GAConfig} {st : GAState} (hec : 1 ≤ cfg.elite_count)
    (hne : st.population ≠ []) : ∀ x ∈ st.population, x.1 ≤ (genBest cfg st).1 := by
  intro x hx
  unfold genBest elitesOf
  rw [headD_take hec]
  exact sortPop_headD_max hne x hx

theorem chain'_append_singleton {l : List ℚ} {b : ℚ} (hc : List.Chain' (· ≤ ·) l)
    (hle : ∀ x ∈ l, x ≤ b) : List.Chain' (· ≤ ·) (l ++ [b]) := by
  induction l with
  | nil => simp
  | cons a l ih =>
    cases l with
    | nil =>
      simp only [List.nil_append, List.cons_append]
      exact List.chain'_cons.2 ⟨hle a (List.mem_cons_self _ _), List.chain'_singleton b⟩
    | cons c l' =>
      rw [List.cons_append, List.cons_append, List.chain'_cons]
      rw [List.chain'_cons] at hc
      refine ⟨hc.1, ?_⟩
      rw [← List.cons_append]
      exact ih hc.2 (fun x hx => hle x (List.mem_cons_of_mem _ hx))

theorem genStep_eq_none (si : ShiftInput) (constraints : List CompiledConstraint)
    (cfg : GAConfig) (pr : ℕ → PairRand) {st : GAState} (htop : st.top = none) :
    genStep si constraints cfg pr st =
      { top := some (genBest cfg st), history := st.history ++ [(genBest cfg st).1],
        population := elitesOf cfg st ++ breedAll si constraints cfg pr (elitesOf cfg st) } := by
  unfold genStep
  rw [htop]

theorem genStep_eq_replace (si : ShiftInput) (constraints : List CompiledConstraint)
    (cfg : GAConfig) (pr : ℕ → PairRand) {st : GAState} {t : Ind}
    (htop : st.top = some t) (hlt : t.1 < (genBest cfg st).1) :
    genStep si constraints cfg pr st =
      { top := some (genBest cfg st), history := st.history ++ [(genBest cfg st).1],
        population := elitesOf cfg st ++ breedAll si constraints cfg pr (elitesOf cfg st) } := by
  unfold genStep
  rw [htop]
  exact if_pos hlt

theorem genStep_eq_keep (si : ShiftInput) (constraints : List CompiledConstraint)
    (cfg : GAConfig) (pr : ℕ → PairRand) {st : GAState} {t : Ind}
    (htop : st.top = some t) (hge : ¬ t.1 < (genBest cfg st).1) :
    genStep si constraints cfg pr st =
      { top := some t, history := st.history ++ [t.1],
        population := (elitesOf cfg st ++ [t]) ++
          breedAll si constraints cfg pr (elitesOf cfg st ++ [t]) } := by
  unfold genStep
  rw [htop]
  exact if_neg hge

/-- The invariant the generation loop maintains over (top, history). -/
def HistInv (st : GAState) : Prop :=
  List.Chain' (· ≤ ·) st.history ∧
  (∀ x ∈ st.history, ∀ t, st.top = some t → x ≤ t.1) ∧
  (st.top = none → st.history = [])

theorem genStep_inv (si : ShiftInput) (constraints : List CompiledConstraint)
    (cfg : GAConfig) (pr : ℕ → PairRand) {st : GAState} (h : HistInv st) :
    HistInv (genStep si constraints cfg pr st) := by
  obtain ⟨hchain, hbound, hnone⟩ := h
  cases htop : st.top with
  | none =>
    rw [genStep_eq_none si constraints cfg pr htop]
    rw [hnone htop]
    refine ⟨List.chain'_singleton _, ?_, by simp⟩
    intro x hx t ht
    cases ht
    have hx' : x ∈ [(genBest cfg st).1] := by simpa using hx
    exact le_of_eq (List.mem_singleton.1 hx')
  | some t =>
    by_cases hlt : t.1 < (genBest cfg st).1
    · rw [genStep_eq_replace si constraints cfg pr htop hlt]
      refine ⟨?_, ?_, by simp⟩
      · exact chain'_append_singleton hchain
          (fun x hx => le_trans (hbound x hx t htop) (le_of_lt hlt))
      · intro x hx t' ht'
        cases ht'
        rcases List.mem_append.1 hx with h' | h'
        · exact le_trans (hbound x h' t htop) (le_of_lt hlt)
        · exact le_of_eq (List.mem_singleton.1 h')
    · rw [genStep_eq_keep si constraints cfg pr htop hlt]
      refine ⟨?_, ?_, by simp⟩
      · exact chain'_append_singleton hchain (fun x hx => hbound x hx t htop)
      · intro x hx t' ht'
        cases ht'
        rcases List.mem_append.1 hx with h' | h'
        · exact hbound x h' t htop
        · exact le_of_eq (List.mem_singleton.1 h')

theorem foldl_genStep_inv (si : ShiftInput) (constraints : List CompiledConstraint)
    (cfg : GAConfig) (rnd : GARand) (gens : List ℕ) (st : GAState) (h : HistInv st) :
    HistInv (gens.foldl (fun s g => genStep si constraints cfg (rnd.pair g) s) st) := by
  induction gens generalizing st with
  | nil => exact h
  | cons g rest ih => exact ih _ (genStep_inv si constraints cfg (rnd.pair g) h)

theorem getD_eq_get {l : List ℚ} {i : ℕ} (h : i < l.length) :
    l.getD i 0 = l.get ⟨i, h⟩ := by
  rw [List.getD_eq_getElem?_getD, List.getElem?_eq_getElem h]
  rfl

theorem genStep_history_length (si : ShiftInput) (constraints : List CompiledConstraint)
    (cfg : GAConfig) (pr : ℕ → PairRand) (st : GAState) :
    (genStep si constraints cfg pr st).history.length = st.history.length + 1 := by
  cases htop : st.top with
  | none => rw [genStep_eq_none si constraints cfg pr htop]; simp
  | some t =>
    by_cases hlt : t.1 < (genBest cfg st).1
    · rw [genStep_eq_replace si constraints cfg pr htop hlt]; simp
    · rw [genStep_eq_keep si constraints cfg pr htop hlt]; simp

theorem foldl_genStep_history_length (si : ShiftInput)
    (constraints : List CompiledConstraint) (cfg : GAConfig) (rnd : GARand)
    (gens : List ℕ) (st : GAState) :
    ((gens.foldl (fun s g => genStep si constraints cfg (rnd.pair g) s) st)).history.length =
      st.history.length + gens.length := by
  induction gens generalizing st with
  | nil => rfl
  | cons g rest ih =>
    rw [List.foldl_cons, ih, genStep_history_length, List.length_cons]
    omega

/-- The history has one entry per generation. -/
theorem run_history_length (si : ShiftInput) (constraints : List CompiledConstraint)
    (cfg : GAConfig) (rnd : GARand) :
    (run si constraints cfg rnd).score_history.length = cfg.generation_count := by
  simp only [run]
  rw [foldl_genStep_history_length]
  simp

/-- C3: (1) the score history returned by `GARunner.run` is non-decreasing;
(2) when the generation best does not exceed the all-time best, the step
re-inserts the all-time best into the breeding pool and records its score;
(3) each recorded entry is the score of the new all-time best, which
dominates every individual of the working population and the previous best. -/
theorem ga_run_history_spec :
    (∀ (si : ShiftInput) (constraints : List CompiledConstraint) (cfg : GAConfig)
      (rnd : GARand) (i : ℕ),
      i + 1 < (run si constraints cfg rnd).score_history.length →
      (run si constraints cfg rnd).score_history.getD i 0 ≤
        (run si constraints cfg rnd).score_history.getD (i + 1) 0) ∧
    (∀ (si : ShiftInput) (constraints : List CompiledConstraint) (cfg : GAConfig)
      (pr : ℕ → PairRand) (st : GAState) (t : Ind), st.top = some t →
      (genBest cfg st).1 ≤ t.1 →
      t ∈ (genStep si constraints cfg pr st).population ∧
      (genStep si constraints cfg pr st).history = st.history ++ [t.1]) ∧
    (∀ (si : ShiftInput) (constraints : List CompiledConstraint) (cfg : GAConfig)
      (pr : ℕ → PairRand) (st : GAState), 1 ≤ cfg.elite_count → st.population ≠ [] →
      ∃ t' : Ind, (genStep si constraints cfg pr st).top = some t' ∧
        (genStep si constraints cfg pr st).history = st.history ++ [t'.1] ∧
        (∀ x ∈ st.population, x.1 ≤ t'.1) ∧
        (∀ t, st.top = some t → t.1 ≤ t'.1)) := by
  refine ⟨?_, ?_, ?_⟩
  · intro si constraints cfg rnd i h
    have hinv := foldl_genStep_inv si constraints cfg rnd (List.range cfg.generation_count)
      ⟨none, [], (List.range cfg.initial_population).map (fun j =>
        let ind := create_individual si (rnd.initChoose j)
        let ind' := holiday_fix ind si (rnd.initFix j)
        (evalScore ind' si constraints, ind'))⟩
      ⟨List.chain'_nil, by simp, fun _ => rfl⟩
    have hchain : List.Chain' (· ≤ ·) (run si constraints cfg rnd).score_history := hinv.1
    have h' : i < (run si constraints cfg rnd).score_history.length - 1 := by omega
    have hstep := (List.chain'_iff_get.1 hchain) i h'
    rw [getD_eq_get (by omega), getD_eq_get (by omega)]
    exact hstep
  · intro si constraints cfg pr st t htop hle
    rw [genStep_eq_keep si constraints cfg pr htop (not_lt.2 hle)]
    exact ⟨List.mem_append_left _ (List.mem_append_right _ (List.mem_singleton.2 rfl)), rfl⟩
  · intro si constraints cfg pr st hec hne
    cases htop : st.top with
    | none =>
      refine ⟨genBest cfg st, ?_, ?_, genBest_max hec hne, ?_⟩
      · rw [genStep_eq_none si constraints cfg pr htop]
      · rw [genStep_eq_none si constraints cfg pr htop]
      · intro t ht
        cases ht
    | some t =>
      by_cases hlt : t.1 < (genBest cfg st).1
      · refine ⟨genBest cfg st, ?_, ?_, genBest_max hec hne, ?_⟩
        · rw [genStep_eq_replace si constraints cfg pr htop hlt]
        · rw [genStep_eq_replace si constraints cfg pr htop hlt]
        · intro t' ht'
          cases ht'
          exact le_of_lt hlt
      · refine ⟨t, ?_, ?_, ?_, ?_⟩
        · rw [genStep_eq_keep si constraints cfg pr htop hlt]
        · rw [genStep_eq_keep si constraints cfg pr htop hlt]
        · intro x hx
          exact le_trans (genBest_max hec hne x hx) (not_lt.1 hlt)
        · intro t' ht'
          cases ht'
          exact le_refl _

/-- Witness for C3: a 3-generation run on a tiny input; two concrete steps. -/
theorem ga_run_history_spec_witness :
    ((run si6 [] ⟨2, 1, 3, 1/2, 0, 1/10⟩
      ⟨fun _ _ => takeChoose, fun _ _ => takeChoose,
       fun _ _ => ⟨fun _ => 0, ⟨1, takeChoose⟩, ⟨1, takeChoose⟩,
         fun _ => takeChoose, fun _ => takeChoose⟩⟩).score_history.getD 0 0 ≤
      (run si6 [] ⟨2, 1, 3, 1/2, 0, 1/10⟩
      ⟨fun _ _ => takeChoose, fun _ _ => takeChoose,
       fun _ _ => ⟨fun _ => 0, ⟨1, takeChoose⟩, ⟨1, takeChoose⟩,
         fun _ => takeChoose, fun _ => takeChoose⟩⟩).score_history.getD 1 0) ∧
    (((0 : ℚ), ([[0]] : Mat)) ∈ (genStep si6 [] ⟨2, 1, 3, 1/2, 0, 1/10⟩
      (fun _ => ⟨fun _ => 0, ⟨1, takeChoose⟩, ⟨1, takeChoose⟩,
        fun _ => takeChoose, fun _ => takeChoose⟩)
      ⟨some (0, [[0]]), [0], [(0, [[0]])]⟩).population) ∧
    (∃ t' : Ind, (genStep si6 [] ⟨2, 1, 3, 1/2, 0, 1/10⟩
      (fun _ => ⟨fun _ => 0, ⟨1, takeChoose⟩, ⟨1, takeChoose⟩,
        fun _ => takeChoose, fun _ => takeChoose⟩)
      ⟨some (0, [[0]]), [0], [(0, [[0]])]⟩).top = some t' ∧
      (genStep si6 [] ⟨2, 1, 3, 1/2, 0, 1/10⟩
        (fun _ => ⟨fun _ => 0, ⟨1, takeChoose⟩, ⟨1, takeChoose⟩,
          fun _ => takeChoose, fun _ => takeChoose⟩)
        ⟨some (0, [[0]]), [0], [(0, [[0]])]⟩).history = [0] ++ [t'.1] ∧
      (∀ x ∈ [((0 : ℚ), ([[0]] : Mat))], x.1 ≤ t'.1) ∧
      (∀ t, (some ((0 : ℚ), ([[0]] : Mat)) : Option Ind) = some t → t.1 ≤ t'.1)) := by
  refine ⟨?_, ?_, ?_⟩
  · exact ga_run_history_spec.1 si6 [] ⟨2, 1, 3, 1/2, 0, 1/10⟩
      ⟨fun _ _ => takeChoose, fun _ _ => takeChoose,
       fun _ _ => ⟨fun _ => 0, ⟨1, takeChoose⟩, ⟨1, takeChoose⟩,
         fun _ => takeChoose, fun _ => takeChoose⟩⟩ 0
      (by rw [run_history_length]; decide)
  · exact (ga_run_history_spec.2.1 si6 [] ⟨2, 1, 3, 1/2, 0, 1/10⟩
      (fun _ => ⟨fun _ => 0, ⟨1, takeChoose⟩, ⟨1, takeChoose⟩,
        fun _ => takeChoose, fun _ => takeChoose⟩)
      ⟨some (0, [[0]]), [0], [(0, [[0]])]⟩ (0, [[0]]) rfl (by decide)).1
  · exact ga_run_history_spec.2.2 si6 [] ⟨2, 1, 3, 1/2, 0, 1/10⟩
      (fun _ => ⟨fun _ => 0, ⟨1, takeChoose⟩, ⟨1, takeChoose⟩,
        fun _ => takeChoose, fun _ => takeChoose⟩)
      ⟨some (0, [[0]]), [0], [(0, [[0]])]⟩ (by decide) (by decide)

/-! ## A store model of the numpy aliasing discipline (claim C10)

Each operator receives arrays as views into buffers of an explicit store.
`.copy()` and `.flatten()` allocate fresh buffers (numpy's `flatten` always
copies); `reshape` and row indexing return views that share the buffer; all
element writes go through a view into its buffer.  The operators below are
the same line-by-line transcriptions as the pure ones, but state-passing, so
that "the operator never writes its inputs' buffers" becomes provable. -/

/-- A buffer of the store. -/
abbrev Buf := List ℕ

/-- The heap: buffers addressed by allocation order. -/
abbrev Store := List Buf

/-- A 1-D view into a buffer: `buf[off : off+len]`. -/
structure NView where
  ref : ℕ
  off : ℕ
  len : ℕ

/-- A contiguous row-major 2-D array over a buffer. -/
structure NArr2 where
  ref : ℕ
  off : ℕ
  rows : ℕ
  cols : ℕ

def readBuf (σ : Store) (r : ℕ) : Buf := σ.getD r []

def readView (σ : Store) (v : NView) : List ℕ :=
  ((readBuf σ v.ref).drop v.off).take v.len

def arrData (a : NArr2) : NView := ⟨a.ref, a.off, a.rows * a.cols⟩

def readArr (σ : Store) (a : NArr2) : List ℕ := readView σ (arrData a)

/-- Write one element through a view. -/
def writeAt (σ : Store) (v : NView) (i : ℕ) (x : ℕ) : Store :=
  σ.set v.ref ((readBuf σ v.ref).set (v.off + i) x)

/-- `view[idxs] = x`. -/
def writeAll (σ : Store) (v : NView) (idxs : List ℕ) (x : ℕ) : Store :=
  idxs.foldl (fun σ' i => writeAt σ' v i x) σ

/-- `ch[mask] = src[mask]`, over the whole view. -/
def maskWrite (σ : Store) (v : NView) (src : List ℕ) (mask : ℕ → Bool) : Store :=
  (List.range v.len).foldl
    (fun σ' i => if mask i then writeAt σ' v i (src.getD i 0) else σ') σ

/-- The mutation write for one index. -/
def flipWrite (σ : Store) (v : NView) (idx : ℕ) : Store :=
  let x := (readView σ v).getD idx 0
  if x = 0 then writeAt σ v idx 1
  else if x = 1 then writeAt σ v idx 0
  else σ

/-- `reshape`: a view, no copy. -/
def reshapeView (v : NView) (rows cols : ℕ) : NArr2 := ⟨v.ref, v.off, rows, cols⟩

/-- `arr[i]`: a row view, no copy. -/
def rowView (a : NArr2) (i : ℕ) : NView := ⟨a.ref, a.off + i * a.cols, a.cols⟩

/-- `crossover_uniform` in the store model: two `flatten` copies, two
`.copy()` children, masked writes into the children, reshaped views out. -/
def crossoverH (σ : Store) (parent1 parent2 : NArr2) (rate : ℚ) (rnd : ℕ → ℚ) :
    Store × NArr2 × NArr2 :=
  let σ1 := σ ++ [readArr σ parent1]
  let p1 : NView := ⟨σ.length, 0, parent1.rows * parent1.cols⟩
  let σ2 := σ1 ++ [readArr σ1 parent2]
  let p2 : NView := ⟨σ1.length, 0, parent2.rows * parent2.cols⟩
  let σ3 := σ2 ++ [readView σ2 p1]
  let ch1 : NView := ⟨σ2.length, 0, p1.len⟩
  let σ4 := σ3 ++ [readView σ3 p2]
  let ch2 : NView := ⟨σ3.length, 0, p2.len⟩
  let d1 := readView σ4 p1
  let d2 := readView σ4 p2
  let mask := fun i => (d1.getD i 0 != d2.getD i 0) && decide (rate ≤ rnd i)
  let σ5 := maskWrite σ4 ch1 d2 mask
  let σ6 := maskWrite σ5 ch2 d1 mask
  (σ6, reshapeView ch1 parent1.rows parent1.cols,
    reshapeView ch2 parent1.rows parent1.cols)

/-- `mutation` in the store model: an early return of the argument itself, or
a `.copy()`, a `flatten` copy, flips written into the flat copy, reshaped out. -/
def mutationH (σ : Store) (child : NArr2) (mutation_rate gene_ratio r : ℚ)
    (choose : ChooseFn) : Store × NArr2 :=
  if mutation_rate ≤ r then (σ, child)
  else
    let σ1 := σ ++ [readArr σ child]
    let result : NArr2 := ⟨σ.length, 0, child.rows, child.cols⟩
    let σ2 := σ1 ++ [readArr σ1 result]
    let flat : NView := ⟨σ1.length, 0, child.rows * child.cols⟩
    let mi := whereIdx (fun v => v == 0 || v == 1) (readView σ2 flat)
    if mi.length = 0 then (σ2, result)
    else
      let cnt : ℤ := max 1 (pyInt ((mi.length : ℚ) * gene_ratio))
      let chosen := choose mi (min cnt.toNat mi.length)
      (chosen.foldl (fun σ' idx => flipWrite σ' flat idx) σ2,
        reshapeView flat child.rows child.cols)

/-- One row repair of `holiday_fix`, writing through a row view. -/
def fixRowH (σ : Store) (row : NView) (ch : ChooseFn) (target : ℕ) : Store :=
  let rowData := readView σ row
  let actual := count_nonzero rowData
  if actual = target then σ
  else if target < actual then
    let diff := actual - target
    let holiday_indices := whereIdx (fun v => v == 1) rowData
    if diff ≤ holiday_indices.length then writeAll σ row (ch holiday_indices diff) 0
    else writeAll σ row holiday_indices 0
  else
    let need := target - actual
    let work_indices := whereIdx (fun v => v == 0) rowData
    if need ≤ work_indices.length then writeAll σ row (ch work_indices need) 1
    else writeAll σ row work_indices 1

def holidayFixHGo (choose : ℕ → ChooseFn) (result : NArr2) :
    ℕ → List EmployeeInfo → Store → Store
  | _, [], σ => σ
  | k, emp :: rest, σ =>
    holidayFixHGo choose result (k + 1) rest
      (fixRowH σ (rowView result emp.index) (choose k) emp.required_holidays)

/-- `holiday_fix` in the store model: one `.copy()`, then row-view writes. -/
def holiday_fixH (σ : Store) (schedule : NArr2) (employees : List EmployeeInfo)
    (choose : ℕ → ChooseFn) : Store × NArr2 :=
  let σ1 := σ ++ [readArr σ schedule]
  let result : NArr2 := ⟨σ.length, 0, schedule.rows, schedule.cols⟩
  (holidayFixHGo choose result 0 employees σ1, result)

def createHGo (choose : ℕ → ChooseFn) (schedule : NArr2) :
    ℕ → List EmployeeInfo → Store → Store
  | _, [], σ => σ
  | k, emp :: rest, σ =>
    let row := rowView schedule emp.index
    let rowData := readView σ row
    let target := emp.required_holidays
    let existing := count_nonzero rowData
    let work_indices := whereIdx (fun v => v == 0) rowData
    let σ' :=
      if existing < target ∧ target - existing ≤ work_indices.length then
        writeAll σ row (choose k work_indices (target - existing)) 1
      else σ
    createHGo choose schedule (k + 1) rest σ'

/-- `create_individual` in the store model: copy the base, then row writes. -/
def create_individualH (σ : Store) (base : NArr2) (employees : List EmployeeInfo)
    (choose : ℕ → ChooseFn) : Store × NArr2 :=
  let σ1 := σ ++ [readArr σ base]
  let schedule : NArr2 := ⟨σ.length, 0, base.rows, base.cols⟩
  (createHGo choose schedule 0 employees σ1, schedule)

/-- `σ'` agrees with `σ` on every buffer allocated before position `n`. -/
def PreservesBelow (n : ℕ) (σ σ' : Store) : Prop :=
  ∀ r, r < n → readBuf σ' r = readBuf σ r

theorem preservesBelow_refl (n : ℕ) (σ : Store) : PreservesBelow n σ σ :=
  fun _ _ => rfl

theorem preservesBelow_trans {n : ℕ} {σ σ' σ'' : Store}
    (h1 : PreservesBelow n σ σ') (h2 : PreservesBelow n σ' σ'') :
    PreservesBelow n σ σ'' :=
  fun r hr => (h2 r hr).trans (h1 r hr)

theorem preservesBelow_append (n : ℕ) {σ : Store} (hn : n ≤ σ.length) (bs : List Buf) :
    PreservesBelow n σ (σ ++ bs) := by
  intro r hr
  unfold readBuf
  rw [List.getD_eq_getElem?_getD, List.getElem?_append_left (by omega),
    ← List.getD_eq_getElem?_getD]

theorem preservesBelow_writeAt {n : ℕ} (σ : Store) {v : NView} (hv : n ≤ v.ref)
    (i x : ℕ) : PreservesBelow n σ (writeAt σ v i x) := by
  intro r hr
  unfold writeAt readBuf
  rw [getD_set_ne' _ _ _ _ _ (by omega)]

theorem preservesBelow_foldl {n : ℕ} {β : Type} (step : Store → β → Store)
    (hstep : ∀ σ' b, PreservesBelow n σ' (step σ' b)) (l : List β) (σ : Store) :
    PreservesBelow n σ (l.foldl step σ) := by
  induction l generalizing σ with
  | nil => exact preservesBelow_refl n σ
  | cons b rest ih => exact preservesBelow_trans (hstep σ b) (ih (step σ b))

theorem preservesBelow_writeAll {n : ℕ} (σ : Store) (v : NView) (hv : n ≤ v.ref)
    (idxs : List ℕ) (x : ℕ) : PreservesBelow n σ (writeAll σ v idxs x) :=
  preservesBelow_foldl _ (fun σ' i => preservesBelow_writeAt σ' hv i x) idxs σ

theorem preservesBelow_maskWrite {n : ℕ} (σ : Store) {v : NView} (hv : n ≤ v.ref)
    (src : List ℕ) (mask : ℕ → Bool) : PreservesBelow n σ (maskWrite σ v src mask) := by
  apply preservesBelow_foldl
  intro σ' i
  by_cases hm : mask i = true
  · show PreservesBelow n σ' (if mask i then _ else σ')
    rw [if_pos hm]
    exact preservesBelow_writeAt σ' hv i _
  · show PreservesBelow n σ' (if mask i then _ else σ')
    rw [if_neg hm]
    exact preservesBelow_refl n σ'

theorem preservesBelow_flipWrite {n : ℕ} (σ : Store) {v : NView} (hv : n ≤ v.ref)
    (idx : ℕ) : PreservesBelow n σ (flipWrite σ v idx) := by
  simp only [flipWrite]
  split
  · exact preservesBelow_writeAt σ hv idx 1
  · split
    · exact preservesBelow_writeAt σ hv idx 0
    · exact preservesBelow_refl n σ

theorem preservesBelow_fixRowH {n : ℕ} (σ : Store) (row : NView) (hv : n ≤ row.ref)
    (ch : ChooseFn) (target : ℕ) : PreservesBelow n σ (fixRowH σ row ch target) := by
  simp only [fixRowH]
  split
  · exact preservesBelow_refl n σ
  · split
    · split
      · exact preservesBelow_writeAll σ _ hv _ 0
      · exact preservesBelow_writeAll σ _ hv _ 0
    · split
      · exact preservesBelow_writeAll σ _ hv _ 1
      · exact preservesBelow_writeAll σ _ hv _ 1

theorem preservesBelow_holidayFixHGo {n : ℕ} (choose : ℕ → ChooseFn) {result : NArr2}
    (hres : n ≤ result.ref) (k : ℕ) (emps : List EmployeeInfo) (σ : Store) :
    PreservesBelow n σ (holidayFixHGo choose result k emps σ) := by
  induction emps generalizing k σ with
  | nil => exact preservesBelow_refl n σ
  | cons emp rest ih =>
    exact preservesBelow_trans
      (preservesBelow_fixRowH σ (rowView result emp.index) hres _ _)
      (ih (k + 1) _)

theorem preservesBelow_createHGo {n : ℕ} (choose : ℕ → ChooseFn) {schedule : NArr2}
    (hres : n ≤ schedule.ref) (k : ℕ) (emps : List EmployeeInfo) (σ : Store) :
    PreservesBelow n σ (createHGo choose schedule k emps σ) := by
  induction emps generalizing k σ with
  | nil => exact preservesBelow_refl n σ
  | cons emp rest ih =>
    simp only [createHGo]
    split
    · exact preservesBelow_trans
        (preservesBelow_writeAll σ (rowView schedule emp.index) hres _ 1)
        (ih (k + 1) _)
    · exact ih (k + 1) σ

/-- C10: no genetic operator writes any buffer that existed before the call —
in particular the parent matrices, the mutation child, the schedule passed to
`holiday_fix`, and the base schedule all read back exactly the values they
held before; every operator writes only into buffers it freshly copied. -/
theorem operators_never_mutate_inputs :
    (∀ (σ : Store) (parent1 parent2 : NArr2) (rate : ℚ) (rnd : ℕ → ℚ) (a : NArr2),
      a.ref < σ.length →
      readArr (crossoverH σ parent1 parent2 rate rnd).1 a = readArr σ a) ∧
    (∀ (σ : Store) (child : NArr2) (mutation_rate gene_ratio r : ℚ) (choose : ChooseFn)
      (a : NArr2), a.ref < σ.length →
      readArr (mutationH σ child mutation_rate gene_ratio r choose).1 a = readArr σ a) ∧
    (∀ (σ : Store) (schedule : NArr2) (employees : List EmployeeInfo)
      (choose : ℕ → ChooseFn) (a : NArr2), a.ref < σ.length →
      readArr (holiday_fixH σ schedule employees choose).1 a = readArr σ a) ∧
    (∀ (σ : Store) (base : NArr2) (employees : List EmployeeInfo)
      (choose : ℕ → ChooseFn) (a : NArr2), a.ref < σ.length →
      readArr (create_individualH σ base employees choose).1 a = readArr σ a) := by
  have readArr_congr : ∀ (σ σ' : Store) (a : NArr2),
      readBuf σ' a.ref = readBuf σ a.ref → readArr σ' a = readArr σ a := by
    intro σ σ' a h
    unfold readArr readView arrData
    rw [h]
  refine ⟨?_, ?_, ?_, ?_⟩
  · intro σ parent1 parent2 rate rnd a ha
    apply readArr_congr
    simp only [crossoverH]
    refine (preservesBelow_trans (preservesBelow_append _ le_rfl _)
      (preservesBelow_trans (preservesBelow_append _ (by simp) _)
      (preservesBelow_trans (preservesBelow_append _ (by simp) _)
      (preservesBelow_trans (preservesBelow_append _ (by simp) _)
      (preservesBelow_trans (preservesBelow_maskWrite _ (by simp) _ _)
        (preservesBelow_maskWrite _ (by simp) _ _)))))) a.ref ha
  · intro σ child mutation_rate gene_ratio r choose a ha
    apply readArr_congr
    simp only [mutationH]
    split
    · rfl
    · split
      · exact (preservesBelow_trans (preservesBelow_append _ le_rfl _)
          (preservesBelow_append _ (by simp) _)) a.ref ha
      · refine (preservesBelow_trans (preservesBelow_append _ le_rfl _)
          (preservesBelow_trans (preservesBelow_append _ (by simp) _)
          (preservesBelow_foldl _ (fun σ' idx =>
            preservesBelow_flipWrite σ' (by simp) idx) _ _))) a.ref ha
  · intro σ schedule employees choose a ha
    apply readArr_congr
    simp only [holiday_fixH]
    exact (preservesBelow_trans (preservesBelow_append _ le_rfl _)
      (preservesBelow_holidayFixHGo choose (by simp) 0 employees _)) a.ref ha
  · intro σ base employees choose a ha
    apply readArr_congr
    simp only [create_individualH]
    exact (preservesBelow_trans (preservesBelow_append _ le_rfl _)
      (preservesBelow_createHGo choose (by simp) 0 employees _)) a.ref ha

/-- Witness for C10: a one-buffer store passes through all four operators
unchanged at its pre-existing reference. -/
theorem operators_never_mutate_inputs_witness :
    readArr (crossoverH [[0, 1]] ⟨0, 0, 1, 2⟩ ⟨0, 0, 1, 2⟩ (1/2) (fun _ => 0)).1
      ⟨0, 0, 1, 2⟩ = readArr [[0, 1]] ⟨0, 0, 1, 2⟩ ∧
    readArr (mutationH [[0, 1]] ⟨0, 0, 1, 2⟩ 1 (1/10) 0 takeChoose).1 ⟨0, 0, 1, 2⟩ =
      readArr [[0, 1]] ⟨0, 0, 1, 2⟩ ∧
    readArr (holiday_fixH [[0, 1]] ⟨0, 0, 1, 2⟩ [⟨0, "A", 1⟩] (fun _ => takeChoose)).1
      ⟨0, 0, 1, 2⟩ = readArr [[0, 1]] ⟨0, 0, 1, 2⟩ ∧
    readArr (create_individualH [[0, 1]] ⟨0, 0, 1, 2⟩ [⟨0, "A", 1⟩]
      (fun _ => takeChoose)).1 ⟨0, 0, 1, 2⟩ = readArr [[0, 1]] ⟨0, 0, 1, 2⟩ :=
  ⟨operators_never_mutate_inputs.1 [[0, 1]] ⟨0, 0, 1, 2⟩ ⟨0, 0, 1, 2⟩ (1/2) (fun _ => 0)
    ⟨0, 0, 1, 2⟩ (by decide),
   operators_never_mutate_inputs.2.1 [[0, 1]] ⟨0, 0, 1, 2⟩ 1 (1/10) 0 takeChoose
    ⟨0, 0, 1, 2⟩ (by decide),
   operators_never_mutate_inputs.2.2.1 [[0, 1]] ⟨0, 0, 1, 2⟩ [⟨0, "A", 1⟩]
    (fun _ => takeChoose) ⟨0, 0, 1, 2⟩ (by decide),
   operators_never_mutate_inputs.2.2.2 [[0, 1]] ⟨0, 0, 1, 2⟩ [⟨0, "A", 1⟩]
    (fun _ => takeChoose) ⟨0, 0, 1, 2⟩ (by decide)⟩

end GAShift
